import Mathlib

/-!
Shallow embedding of the core of the `cpp_raytracer` repository (a CPU path
tracer with a SAH-built, flattened BVH), together with proofs settling the
frozen specification claims.

Modelling conventions, used throughout:

* IEEE-754 `double` values are modelled as exact numbers in a linear ordered
  field `α`, instantiated at `ℚ` (for the executable/decidable developments:
  intervals, AABB slab tests, the BVH) and at `ℝ` (for code that takes square
  roots: `Vec3D::mag`, `Sphere::hit_by`, `Metal::scatter`, `Camera::ray_color`).
  Claims that hold in this exact-arithmetic model are claims about the
  infinite-precision algorithm; rounding is outside the model.
* The canonical empty interval `(+inf, -inf)` of `Interval::empty()` requires
  infinities, which a field does not have.  For the interval/AABB merge
  algebra we therefore also instantiate the `Interval` structure at the
  extended rationals `EDouble := WithBot (WithTop ℚ)`, whose `⊤`/`⊥` model
  `+inf`/`-inf`; `std::fmin`/`std::fmax` on non-NaN doubles are `min`/`max`
  of this linear order.
* `1 / dir` for a zero direction component produces IEEE infinities in the
  source; in the field model `1 / 0 = 0` instead, so every theorem about the
  slab tests and the BVH traversal assumes the ray direction components are
  nonzero (the generic case; the source relies on IEEE special values for
  the measure-zero axis-parallel rays).
* `std::optional<T>` is `Option T`; `Material*` identity is modelled by a
  numeric handle.
-/

namespace RT

/-! ### Vec3D (from `src/src/vec3d.h`) -/

/-- Vec3D: a 3-dimensional vector (equivalently, a point); `Point3D` is an
alias of `Vec3D` in the source. Components are doubles, modelled in a field
`α`. -/
structure Vec3D (α : Type) where
  x : α
  y : α
  z : α
deriving DecidableEq, Repr

namespace Vec3D

variable {α : Type} [LinearOrderedField α]

/-- Element-wise negation (`operator-`). -/
def neg (v : Vec3D α) : Vec3D α := ⟨-v.x, -v.y, -v.z⟩

/-- Element-wise addition (`operator+`). -/
def add (a b : Vec3D α) : Vec3D α := ⟨a.x + b.x, a.y + b.y, a.z + b.z⟩

/-- Element-wise subtraction (`operator-`). -/
def sub (a b : Vec3D α) : Vec3D α := ⟨a.x - b.x, a.y - b.y, a.z - b.z⟩

/-- Multiplication of a vector by a scalar (`operator*`). -/
def smul (d : α) (a : Vec3D α) : Vec3D α := ⟨a.x * d, a.y * d, a.z * d⟩

/-- Division of a vector by a scalar (`operator/`); the source multiplies by
`1 / d`. -/
def sdiv (a : Vec3D α) (d : α) : Vec3D α := smul (1 / d) a

/-- Squared magnitude (`Vec3D::mag_squared`). -/
def mag_squared (v : Vec3D α) : α := v.x * v.x + v.y * v.y + v.z * v.z

/-- The zero vector (`Vec3D::zero`). -/
def zero : Vec3D α := ⟨0, 0, 0⟩

/-- Coordinate on the axis given by `axis` (`operator[]`): `x`, `y`, `z` for
`0`, `1`, anything else. -/
def axisCoord (v : Vec3D α) (axis : ℕ) : α :=
  if axis = 0 then v.x else if axis = 1 then v.y else v.z

/-- Magnitude (`Vec3D::mag`), only available over `ℝ` because it takes a
square root. -/
noncomputable def mag (v : Vec3D ℝ) : ℝ := Real.sqrt v.mag_squared

/-- Unit vector (`Vec3D::unit_vector`): the vector divided by its magnitude. -/
noncomputable def unit_vector (v : Vec3D ℝ) : Vec3D ℝ := v.sdiv v.mag

end Vec3D

/-- Dot product of two vectors (`dot`). -/
def dot {α : Type} [LinearOrderedField α] (a b : Vec3D α) : α :=
  a.x * b.x + a.y * b.y + a.z * b.z

/-- Cross product of two vectors (`cross`). -/
def cross {α : Type} [LinearOrderedField α] (a b : Vec3D α) : Vec3D α :=
  ⟨a.y * b.z - a.z * b.y, a.z * b.x - a.x * b.z, a.x * b.y - a.y * b.x⟩

/-- Reflection of a direction about a unit normal (`reflected`):
`dir - 2 * dot(dir, unit_normal) * unit_normal`. -/
def reflected {α : Type} [LinearOrderedField α] (dir unit_normal : Vec3D α) :
    Vec3D α :=
  dir.sub (unit_normal.smul (2 * dot dir unit_normal))

/-! ### Ray3D (from `src/include/math/ray3d.h`) -/

/-- Ray3D: an origin point and a direction vector. -/
structure Ray3D (α : Type) where
  origin : Vec3D α
  dir : Vec3D α
deriving DecidableEq, Repr

/-- Evaluation of a ray at time `t` (`Ray3D::operator()`): `origin + t * dir`. -/
def Ray3D.at {α : Type} [LinearOrderedField α] (ray : Ray3D α) (t : α) :
    Vec3D α :=
  ray.origin.add (ray.dir.smul t)

/-! ### Interval (from `src/src/interval.h`) -/

/-- Interval from `min` to `max`. The bound type is a parameter so the same
structure serves the rational instantiation and the extended-rational one
(which can represent the canonical empty interval `(+inf, -inf)`). -/
structure Interval (α : Type) where
  min : α
  max : α
deriving DecidableEq, Repr

/-- EDouble: the extended rationals, modelling the `double` values including
the two infinities (`⊤` is `DOUBLE_INF`, `⊥` is `-DOUBLE_INF`). NaN never
arises in the merge algebra modelled with this type. -/
abbrev EDouble : Type := WithBot (WithTop ℚ)

/-- DOUBLE_INF, the positive infinity of `double`. -/
def DOUBLE_INF : EDouble := ((⊤ : WithTop ℚ) : WithBot (WithTop ℚ))

namespace Interval

/-- Size of an interval (`Interval::size`): `max - min`. -/
def size {α : Type} [LinearOrderedField α] (i : Interval α) : α := i.max - i.min

/-- Emptiness test (`Interval::is_empty`): `size() <= 0`. -/
def is_empty {α : Type} [LinearOrderedField α] (i : Interval α) : Prop :=
  i.size ≤ 0

instance {α : Type} [LinearOrderedField α] (i : Interval α) :
    Decidable i.is_empty := by
  unfold is_empty; infer_instance

/-- Midpoint of an interval (`Interval::midpoint`, via `std::midpoint`):
`(min + max) / 2` in exact arithmetic. -/
def midpoint {α : Type} [LinearOrderedField α] (i : Interval α) : α :=
  (i.min + i.max) / 2

/-- Membership in the exclusive range `(min, max)`
(`Interval::contains_exclusive`). -/
def contains_exclusive {α : Type} [LinearOrderedField α] (i : Interval α)
    (d : α) : Prop :=
  i.min < d ∧ d < i.max

instance {α : Type} [LinearOrderedField α] (i : Interval α) (d : α) :
    Decidable (i.contains_exclusive d) := by
  unfold contains_exclusive; infer_instance

/-- Membership in the inclusive range `[min, max]`
(`Interval::contains_inclusive`). -/
def contains_inclusive {α : Type} [LinearOrderedField α] (i : Interval α)
    (d : α) : Prop :=
  i.min ≤ d ∧ d ≤ i.max

instance {α : Type} [LinearOrderedField α] (i : Interval α) (d : α) :
    Decidable (i.contains_inclusive d) := by
  unfold contains_inclusive; infer_instance

/-- Indexing (`Interval::operator[]`): the maximum bound when the index is
nonzero (in the source the index is a `size_t`, used with `bool` arguments in
`AABB::is_hit_by_optimized`, so we take a `Bool`), the minimum otherwise. -/
def get {α : Type} (i : Interval α) (index : Bool) : α :=
  if index then i.max else i.min

/-- Merge of two intervals (`Interval::merge`): componentwise
`std::fmin`/`std::fmax`, which agree with `min`/`max` of the linear order on
non-NaN doubles. -/
def merge {α : Type} [LinearOrder α] (a b : Interval α) : Interval α :=
  ⟨Min.min a.min b.min, Max.max a.max b.max⟩

/-- In-place merge with a single value (`Interval::merge_with(double)`). -/
def merge_with_val {α : Type} [LinearOrder α] (i : Interval α) (d : α) :
    Interval α :=
  ⟨Min.min i.min d, Max.max i.max d⟩

/-- Padding (`Interval::pad_with`): expands the interval by `padding` on both
ends. -/
def pad_with {α : Type} [LinearOrderedField α] (i : Interval α) (padding : α) :
    Interval α :=
  ⟨i.min - padding, i.max + padding⟩

/-- The canonical empty interval (`Interval::empty()`): `(+inf, -inf)`,
representable only with the extended bounds. -/
def empty : Interval EDouble := ⟨DOUBLE_INF, (⊥ : EDouble)⟩

end Interval

/-! ### RGB (from `src/rgb.h`) -/

/-- RGB: a color as three real-valued components. -/
structure RGB (α : Type) where
  r : α
  g : α
  b : α
deriving DecidableEq, Repr

namespace RGB

variable {α : Type} [LinearOrderedField α]

/-- The named constructor `RGB::from_mag(red, green, blue)`, which stores the
arguments as the `r`, `g`, `b` fields in that order. -/
def from_mag (red green blue : α) : RGB α := ⟨red, green, blue⟩

/-- The named constructor `RGB::zero()`: all components zero. -/
def zero : RGB α := from_mag 0 0 0

/-- The free operator `operator+ (RGB, RGB)` at `src/rgb.h:100`, exactly as
written in the source:
`RGB::from_mag(a.r + b.r, a.b + b.b, a.g + b.g)`.
Note the argument order: the second argument of `from_mag` (the green
component of the result) receives `a.b + b.b`. -/
def add (a b : RGB α) : RGB α := from_mag (a.r + b.r) (a.b + b.b) (a.g + b.g)

/-- The compound-assignment `operator+=` at `src/rgb.h:66`, which is
componentwise (`r += rhs.r; g += rhs.g; b += rhs.b`). -/
def addAssign (a b : RGB α) : RGB α := ⟨a.r + b.r, a.g + b.g, a.b + b.b⟩

/-- Element-wise multiplication of two colors (`operator* (RGB, RGB)` at
`src/rgb.h:109`). -/
def mul (a b : RGB α) : RGB α := from_mag (a.r * b.r) (a.g * b.g) (a.b * b.b)

/-- Multiplication of a color by a scalar (`operator* (RGB, double)` via
`operator*=`). -/
def smul (d : α) (a : RGB α) : RGB α := ⟨a.r * d, a.g * d, a.b * d⟩

/-- Linear interpolation of two colors (`lerp` at `src/rgb.h:114`). The
source exits the process when `d` is outside `[0, 1]`; the model returns
`RGB.zero` on that (never produced) branch. -/
def lerp (a b : RGB α) (d : α) : RGB α :=
  if (Interval.mk (0 : α) 1).contains_inclusive d then
    from_mag ((1 - d) * a.r + d * b.r) ((1 - d) * a.g + d * b.g)
      ((1 - d) * a.b + d * b.b)
  else zero

end RGB

/-! ### AABB (from `src/include/acceleration/aabb.h`) -/

/-- AABB: an axis-aligned bounding box, the intersection of three axis
intervals (slabs). -/
structure AABB (α : Type) where
  x : Interval α
  y : Interval α
  z : Interval α
deriving DecidableEq, Repr

namespace AABB

variable {α : Type} [LinearOrderedField α]

/-- Axis indexing (`AABB::operator[]`): the x-, y-, z- interval for axis 0,
1, anything else. -/
def axisGet {β : Type} (bb : AABB β) (axis : ℕ) : Interval β :=
  if axis = 0 then bb.x else if axis = 1 then bb.y else bb.z

/-- Centroid of an AABB (`AABB::centroid`): componentwise interval
midpoints. -/
def centroid (bb : AABB α) : Vec3D α :=
  ⟨bb.x.midpoint, bb.y.midpoint, bb.z.midpoint⟩

/-- The body of `AABB::surface_area()` at
`src/include/acceleration/aabb.h:29-31`, exactly as the source computes it:
`2 * (x.size() * x.size() + y.size() * y.size() + z.size() * z.size())`. -/
def surface_area (bb : AABB α) : α :=
  2 * (bb.x.size * bb.x.size + bb.y.size * bb.y.size + bb.z.size * bb.z.size)

/-- Volume of an AABB (`AABB::volume`): the product of the three sizes. -/
def volume (bb : AABB α) : α := bb.x.size * bb.y.size * bb.z.size

/-- Merge of two AABBs (`AABB::merge`): componentwise interval merge. -/
def merge {β : Type} [LinearOrder β] (a b : AABB β) : AABB β :=
  ⟨a.x.merge b.x, a.y.merge b.y, a.z.merge b.z⟩

/-- In-place merge with a point (`AABB::merge_with(const Point3D&)`). -/
def merge_with_point {β : Type} [LinearOrder β] (bb : AABB β) (p : Vec3D β) :
    AABB β :=
  ⟨bb.x.merge_with_val p.x, bb.y.merge_with_val p.y, bb.z.merge_with_val p.z⟩

/-- The AABB of a single point: the value of
`AABB::empty().merge_with(p)`, using that the empty interval is the identity
of the merge (the merge identity is proved over `EDouble` below). -/
def of_point (p : Vec3D α) : AABB α :=
  ⟨⟨p.x, p.x⟩, ⟨p.y, p.y⟩, ⟨p.z, p.z⟩⟩

/-- The named constructor `AABB::from_points`: starts from `AABB::empty()`
and merges every point in turn. Modelled over a field (no infinities) by
starting from the AABB of the first point; the source's empty AABB is the
identity of the merge, so the results agree for every nonempty point list.
The `[]` case never occurs in the source (`from_points` is always called on
explicit nonempty initializer lists). -/
def from_points : List (Vec3D α) → AABB α
  | [] => of_point ⟨0, 0, 0⟩
  | p :: rest => rest.foldl merge_with_point (of_point p)

/-- Padding of short axes (`AABB::ensure_min_axis_length`): every axis whose
size is below `min_axis_length` is padded symmetrically up to that length. -/
def ensure_min_axis_length (bb : AABB α) (min_axis_length : α) : AABB α :=
  ⟨if bb.x.size < min_axis_length then bb.x.pad_with ((min_axis_length - bb.x.size) / 2) else bb.x,
   if bb.y.size < min_axis_length then bb.y.pad_with ((min_axis_length - bb.y.size) / 2) else bb.y,
   if bb.z.size < min_axis_length then bb.z.pad_with ((min_axis_length - bb.z.size) / 2) else bb.z⟩

/-- The empty AABB (`AABB::empty()`): every slab is the canonical empty
interval, requiring the extended bounds. -/
def empty : AABB EDouble := ⟨Interval.empty, Interval.empty, Interval.empty⟩

/-- Membership of a point in an AABB: every coordinate lies in the closed
axis interval. This is the set the AABB represents per the data model. -/
def containsPoint (bb : AABB α) (p : Vec3D α) : Prop :=
  bb.x.contains_inclusive p.x ∧ bb.y.contains_inclusive p.y ∧
    bb.z.contains_inclusive p.z

instance (bb : AABB α) (p : Vec3D α) : Decidable (bb.containsPoint p) := by
  unfold containsPoint; infer_instance

/-- The basic slab test `AABB::is_hit_by` at
`src/include/acceleration/aabb.h:39-125`: per axis, the entry/exit times are
computed from the reciprocal direction, swapped when the reciprocal is
negative, intersected with the running `ray_times`, with a short-circuit to
`false` whenever the running interval becomes empty (`max <= min`). The
source unrolls the three axes; the model factors the per-axis step into
`is_hit_by_axis`. -/
def is_hit_by_axis (iv : Interval α) (origin dir : α)
    (ray_times : Interval α) : Interval α :=
  let inverse_ray_dir := 1 / dir
  let t0 := (iv.min - origin) * inverse_ray_dir
  let t1 := (iv.max - origin) * inverse_ray_dir
  let t0' := if inverse_ray_dir < 0 then t1 else t0
  let t1' := if inverse_ray_dir < 0 then t0 else t1
  ⟨if t0' > ray_times.min then t0' else ray_times.min,
   if t1' < ray_times.max then t1' else ray_times.max⟩

/-- The basic slab test `AABB::is_hit_by`, assembled from the three unrolled
per-axis updates with their short-circuits. -/
def is_hit_by (bb : AABB α) (ray : Ray3D α) (ray_times : Interval α) : Bool :=
  let rt1 := is_hit_by_axis bb.x ray.origin.x ray.dir.x ray_times
  if rt1.max ≤ rt1.min then false
  else
    let rt2 := is_hit_by_axis bb.y ray.origin.y ray.dir.y rt1
    if rt2.max ≤ rt2.min then false
    else
      let rt3 := is_hit_by_axis bb.z ray.origin.z ray.dir.z rt2
      if rt3.max ≤ rt3.min then false
      else true

/-- The optimized slab test `AABB::is_hit_by_optimized` at
`src/include/acceleration/aabb.h:132-174`, taking the precomputed reciprocal
direction and per-axis negativity flags; faithful to the source's early
returns and final strict comparison against `ray_times`. -/
def is_hit_by_optimized (bb : AABB α) (ray : Ray3D α) (ray_times : Interval α)
    (inverse_ray_direction : Vec3D α) (direction_is_negative : Vec3D Bool) :
    Bool :=
  let x_tmin := (bb.x.get direction_is_negative.x - ray.origin.x) * inverse_ray_direction.x
  let x_tmax := (bb.x.get (!direction_is_negative.x) - ray.origin.x) * inverse_ray_direction.x
  let y_tmin := (bb.y.get direction_is_negative.y - ray.origin.y) * inverse_ray_direction.y
  let y_tmax := (bb.y.get (!direction_is_negative.y) - ray.origin.y) * inverse_ray_direction.y
  if x_tmin > y_tmax ∨ y_tmin > x_tmax then false
  else
    let m1 := if y_tmin > x_tmin then y_tmin else x_tmin
    let m2 := if y_tmax < x_tmax then y_tmax else x_tmax
    let z_tmin := (bb.z.get direction_is_negative.z - ray.origin.z) * inverse_ray_direction.z
    let z_tmax := (bb.z.get (!direction_is_negative.z) - ray.origin.z) * inverse_ray_direction.z
    if m1 > z_tmax ∨ z_tmin > m2 then false
    else
      let f1 := if z_tmin > m1 then z_tmin else m1
      let f2 := if z_tmax < m2 then z_tmax else m2
      decide (f1 < ray_times.max) && decide (f2 > ray_times.min)

end AABB

/-! ### hit_info (from `src/include/base/hittable.h`) -/

/-- hit_info: the record of a ray-object intersection. The `material` field
is a non-owning `Material*` in the source; pointer identity is modelled by a
numeric handle. -/
structure hit_info (α : Type) where
  hit_time : α
  hit_point : Vec3D α
  unit_surface_normal : Vec3D α
  hit_from_outside : Bool
  material : ℕ
deriving DecidableEq, Repr

/-- The `hit_info` constructor at `src/include/base/hittable.h:46-71`: given
the outward unit surface normal, orients the stored normal against the
incoming ray (`dot(ray.dir, outward) > 0` means the ray came from inside, so
the normal is flipped and `hit_from_outside` is `false`). -/
def hit_info.make {α : Type} [LinearOrderedField α] (hit_time : α)
    (hit_point outward_unit_surface_normal : Vec3D α) (ray : Ray3D α)
    (material : ℕ) : hit_info α :=
  if dot ray.dir outward_unit_surface_normal > 0 then
    ⟨hit_time, hit_point, outward_unit_surface_normal.neg, false, material⟩
  else
    ⟨hit_time, hit_point, outward_unit_surface_normal, true, material⟩

/-! ### Sphere (from `src/sphere.h`) -/

/-- Sphere: center, radius, material. Over `ℝ` because `hit_by` takes a
square root. -/
structure Sphere where
  center : Vec3D ℝ
  radius : ℝ
  material : ℕ

/-- Sphere::hit_by at `src/sphere.h:43-92`: solves the quadratic
`|o + t d - c|^2 = r^2`, tries the smaller root first, returns the first
root strictly inside `ray_times`; the outward unit normal is
`(hit_point - center) / radius`. (The commented-out shadow-acne shift in the
source is disabled there and absent here.) -/
noncomputable def Sphere.hit_by (s : Sphere) (ray : Ray3D ℝ)
    (ray_times : Interval ℝ) : Option (hit_info ℝ) :=
  let center_to_origin := ray.origin.sub s.center
  let a := dot ray.dir ray.dir
  let b_half := dot ray.dir center_to_origin
  let c := dot center_to_origin center_to_origin - s.radius * s.radius
  let discriminant_quarter := b_half * b_half - a * c
  if discriminant_quarter < 0 then none
  else
    let discriminant_quarter_sqrt := Real.sqrt discriminant_quarter
    let root1 := (-b_half - discriminant_quarter_sqrt) / a
    let root2 := (-b_half + discriminant_quarter_sqrt) / a
    if ray_times.contains_exclusive root1 then
      some (hit_info.make root1 (ray.at root1)
        (((ray.at root1).sub s.center).sdiv s.radius) ray s.material)
    else if ray_times.contains_exclusive root2 then
      some (hit_info.make root2 (ray.at root2)
        (((ray.at root2).sub s.center).sdiv s.radius) ray s.material)
    else none

/-- Sphere::get_aabb: the AABB spanning `center ± (radius, radius, radius)`. -/
noncomputable def Sphere.get_aabb (s : Sphere) : AABB ℝ :=
  let radius_vector : Vec3D ℝ := ⟨s.radius, s.radius, s.radius⟩
  AABB.from_points [s.center.sub radius_vector, s.center.add radius_vector]

/-! ### Parallelogram (from `src/include/shapes/parallelogram.h`) -/

/-- Parallelogram: a vertex, two side vectors, a material, and the three
precomputed members the C++ constructor stores (`unit_plane_normal`,
`scaled_plane_normal`, `aabb`). Keeping the precomputed members as fields
mirrors the class layout and lets the intersection routine be stated over any
field; `Parallelogram.construct` below is the constructor, which needs `ℝ`
for the normalization. -/
structure Parallelogram (α : Type) where
  vertex : Vec3D α
  side1 : Vec3D α
  side2 : Vec3D α
  material : ℕ
  unit_plane_normal : Vec3D α
  scaled_plane_normal : Vec3D α
  aabb : AABB α

/-- Parallelogram::hit_by at `src/include/shapes/parallelogram.h:177-240`:
plane-parallel rejection when `|dot(unit_n, dir)| < 1e-9`, exclusive time
range check, then the barycentric test `0 ≤ α, β ≤ 1` (inclusive). -/
def Parallelogram.hit_by {α : Type} [LinearOrderedField α]
    (p : Parallelogram α) (ray : Ray3D α) (ray_times : Interval α) :
    Option (hit_info α) :=
  let hit_time_denominator := dot p.unit_plane_normal ray.dir
  if |hit_time_denominator| < (1 / 1000000000 : α) then none
  else
    let hit_time := dot p.unit_plane_normal (p.vertex.sub ray.origin) /
      hit_time_denominator
    if ¬ ray_times.contains_exclusive hit_time then none
    else
      let hit_point := ray.at hit_time
      let planar_hitpoint_vector := hit_point.sub p.vertex
      let alpha := dot p.scaled_plane_normal
        (cross planar_hitpoint_vector p.side2)
      let beta := dot p.scaled_plane_normal
        (cross p.side1 planar_hitpoint_vector)
      if (Interval.mk (0 : α) 1).contains_inclusive alpha ∧
          (Interval.mk (0 : α) 1).contains_inclusive beta then
        some (hit_info.make hit_time hit_point p.unit_plane_normal ray
          p.material)
      else none

/-- The `Parallelogram` constructor at
`src/include/shapes/parallelogram.h:269-296`: precomputes
`unit_plane_normal = unit(cross(side1, side2))`,
`scaled_plane_normal = n / |n|^2`, and the AABB of the four corners padded to
a minimum axis length of `1e-4`. -/
noncomputable def Parallelogram.construct (vertex side1 side2 : Vec3D ℝ)
    (material : ℕ) : Parallelogram ℝ :=
  let plane_normal := cross side1 side2
  { vertex := vertex
    side1 := side1
    side2 := side2
    material := material
    unit_plane_normal := plane_normal.unit_vector
    scaled_plane_normal := plane_normal.sdiv plane_normal.mag_squared
    aabb := (AABB.from_points
        [vertex, vertex.add side1, vertex.add side2,
          (vertex.add side1).add side2]).ensure_min_axis_length (1 / 10000) }

/-! ### Materials (from `src/include/base/material.h`) -/

/-- scatter_info: the scattered ray and the color attenuation. -/
structure scatter_info (α : Type) where
  ray : Ray3D α
  attenuation : RGB α
deriving DecidableEq, Repr

/-- Metal: intrinsic color and fuzz factor. -/
structure Metal where
  intrinsic_color : RGB ℝ
  fuzz_factor : ℝ

/-- The `Metal` constructor at `src/include/base/material.h:150-151`:
`fuzz_factor{std::fmin(fuzz, 1.)}` (`std::fmin` is `min` on non-NaN
doubles). -/
def Metal.construct (intrinsic_color : RGB ℝ) (fuzz : ℝ) : Metal :=
  ⟨intrinsic_color, Min.min fuzz 1⟩

/-- Metal::scatter at `src/include/base/material.h:116-139`. The call to
`Vec3D::random_unit_vector()` is modelled by the parameter
`random_unit_vec`, so the theorem quantifies over the sampled value. The ray
is absorbed (`none`) exactly when
`dot(unit_surface_normal, scattered_dir) < 0`. -/
noncomputable def Metal.scatter (m : Metal) (ray : Ray3D ℝ)
    (info : hit_info ℝ) (random_unit_vec : Vec3D ℝ) :
    Option (scatter_info ℝ) :=
  let reflected_unit_dir := reflected ray.dir.unit_vector
    info.unit_surface_normal
  let scattered_dir := reflected_unit_dir.add
    (random_unit_vec.smul m.fuzz_factor)
  if dot info.unit_surface_normal scattered_dir < 0 then none
  else some ⟨⟨info.hit_point, scattered_dir⟩, m.intrinsic_color⟩

/-- A material as consumed by the path integrator: a scatter function and an
emitted color. `scatter`'s randomness is pre-applied, so it is a plain
function of the incident ray and the hit record; `emit` is the value of
`Material::emit()` (`RGB::zero()` by default, overridden by
`DiffuseLight`). -/
structure MaterialImpl where
  scatter : Ray3D ℝ → hit_info ℝ → Option (scatter_info ℝ)
  emit : RGB ℝ

/-- The default `Material::emit()` at `src/include/base/material.h:38-40`:
non-emitting materials return `RGB::zero()`. -/
noncomputable def Material.emit_default : RGB ℝ := RGB.zero

/-! ### The path integrator (from `src/camera.h`) -/

/-- The world as consumed by `Camera::ray_color`: the function
`ray ↦ world.hit_by(ray, Interval::with_min(0.00001))`, i.e. the
intersection query over `(1e-5, +inf)` is pre-applied. -/
def World : Type := Ray3D ℝ → Option (hit_info ℝ)

/-- Camera::ray_color at `src/camera.h:200-229`. Depth exhausted: black.
Miss: the sky-gradient background. Hit and scatter: `attenuation *
ray_color(scattered, depth_left - 1)` (element-wise color product). Hit
without scatter: `RGB::zero()` — note the source adds no emitted term in
either hit branch. Materials are resolved through the handle table `mats`. -/
noncomputable def Camera.ray_color (mats : ℕ → MaterialImpl) (world : World)
    (ray : Ray3D ℝ) (depth_left : ℕ) : RGB ℝ :=
  match depth_left with
  | 0 => RGB.zero
  | depth_left + 1 =>
    match world ray with
    | some info =>
      match (mats info.material).scatter ray info with
      | some scattered =>
        scattered.attenuation.mul
          (Camera.ray_color mats world scattered.ray depth_left)
      | none => RGB.zero
    | none =>
      RGB.lerp (RGB.from_mag 1 1 1) (RGB.from_mag (1/2) (7/10) 1)
        ((1/2) * ray.dir.unit_vector.y + 1/2)

/-! ### Primitives as the BVH and the Scene consume them

A primitive is a `Hittable` seen through the narrow interface the collision
code uses: its AABB (`get_aabb`) and its intersection routine (`hit_by`).
Per the `Hittable` contract, `hit_by(ray, ray_times)` returns the EARLIEST
intersection strictly inside `ray_times`; equivalently, for a fixed ray and
fixed lower bound there is one canonical earliest hit (if any) past the
lower bound, and `hit_by` returns it exactly when its time is below the
upper bound. `Prim` stores that canonical-hit function `chit` and `Prim.hit`
derives `hit_by` from it; the lemma `Parallelogram.ofPrim_hit_eq` below
proves the translated `Parallelogram::hit_by` has exactly this shape. -/

/-- Prim: a primitive via the `Hittable` interface: its AABB and its
canonical earliest-hit function (`chit ray lo` = the earliest hit of `ray`
strictly after time `lo`, with no upper cutoff). -/
structure Prim where
  aabb : AABB ℚ
  chit : Ray3D ℚ → ℚ → Option (hit_info ℚ)

instance : Inhabited Prim :=
  ⟨⟨⟨⟨0, 0⟩, ⟨0, 0⟩, ⟨0, 0⟩⟩, fun _ _ => none⟩⟩

/-- The `Hittable::hit_by` of a primitive: the canonical earliest hit past
`ray_times.min`, returned exactly when it lies strictly below
`ray_times.max`. -/
def Prim.hit (p : Prim) (ray : Ray3D ℚ) (ray_times : Interval ℚ) :
    Option (hit_info ℚ) :=
  match p.chit ray ray_times.min with
  | some h => if h.hit_time < ray_times.max then some h else none
  | none => none

/-- Soundness of a primitive for a given ray: every canonical hit lies
strictly past the queried lower bound and its hit point lies inside the
primitive's AABB. Both facts hold for the translated shapes (proved below
for the parallelogram) and are what BVH pruning relies on. -/
def Prim.SoundFor (p : Prim) (ray : Ray3D ℚ) : Prop :=
  ∀ lo h, p.chit ray lo = some h →
    lo < h.hit_time ∧ p.aabb.containsPoint (ray.at h.hit_time)

/-- The canonical earliest-hit function of a parallelogram: the single
plane-intersection time, subject to the parallel rejection, the strict lower
bound, and the barycentric inclusion test, with no upper cutoff. -/
def Parallelogram.chit {α : Type} [LinearOrderedField α]
    (p : Parallelogram α) (ray : Ray3D α) (lo : α) : Option (hit_info α) :=
  let hit_time_denominator := dot p.unit_plane_normal ray.dir
  if |hit_time_denominator| < (1 / 1000000000 : α) then none
  else
    let hit_time := dot p.unit_plane_normal (p.vertex.sub ray.origin) /
      hit_time_denominator
    if ¬ lo < hit_time then none
    else
      let hit_point := ray.at hit_time
      let planar_hitpoint_vector := hit_point.sub p.vertex
      let alpha := dot p.scaled_plane_normal
        (cross planar_hitpoint_vector p.side2)
      let beta := dot p.scaled_plane_normal
        (cross p.side1 planar_hitpoint_vector)
      if (Interval.mk (0 : α) 1).contains_inclusive alpha ∧
          (Interval.mk (0 : α) 1).contains_inclusive beta then
        some (hit_info.make hit_time hit_point p.unit_plane_normal ray
          p.material)
      else none

/-- A rational-coordinate parallelogram as a `Prim`. -/
def Prim.ofParallelogram (p : Parallelogram ℚ) : Prim := ⟨p.aabb, p.chit⟩

/-! ### Scene (from `src/scene.h`) -/

/-- The accumulator step shared by `Scene::hit_by` and the BVH leaf loop:
fold the primitives in order, querying each over
`(ray_times.min, min_hit_time)` and shrinking `min_hit_time` to each new
(necessarily earlier) hit. State is `(min_hit_time, result)`. -/
def foldHits (ray : Ray3D ℚ) (t_min : ℚ) (ps : List Prim)
    (st : ℚ × Option (hit_info ℚ)) : ℚ × Option (hit_info ℚ) :=
  ps.foldl (fun acc p =>
    match p.hit ray ⟨t_min, acc.1⟩ with
    | some curr => (curr.hit_time, some curr)
    | none => acc) st

/-- Scene::hit_by at `src/scene.h:59-75`: brute-force iteration over the
objects, starting from `min_hit_time = ray_times.max`, querying each object
over `(ray_times.min, min_hit_time)` and recording each closer hit. -/
def Scene.hit_by (objects : List Prim) (ray : Ray3D ℚ)
    (ray_times : Interval ℚ) : Option (hit_info ℚ) :=
  (foldHits ray ray_times.min objects (ray_times.max, none)).2

/-! ### BVH construction (from `src/src/bvh.h`)

The SAH build of `BVH::build_bvh_tree` (lines 180-412). Faithfulness notes:

* The running `AABB::empty()` accumulators hold `(+inf,-inf)` slabs until the
  first merge; over `ℚ` they are modelled as `Option (AABB ℚ)` with `none`
  for the not-yet-merged state (the empty AABB is the identity of `merge`,
  proved over `EDouble` below, so the two presentations agree whenever at
  least one element is merged).
* A split whose A (prefix) or B (suffix) side holds no primitive gets an
  IEEE cost of `inf * finite = inf` or `inf * 0 = NaN` in the source; both
  compare false under the strict `<` against the running minimum and are
  never selected. They are modelled uniformly as a `none` cost.
* `std::partition` leaves the relative order of the two groups unspecified;
  `List.partition` (stable) is one conforming implementation.
* The recursion is driven by fuel; `length + 1` fuel suffices because every
  selected split leaves both sides nonempty (proved below).
* The suffix (B-side) cost loop of the source at lines 317-326 runs
  `i = NUM_BUCKETS-2 … 0` and merges `buckets[i]` itself, so `costs[i]`'s
  B side covers buckets `[i, NUM_BUCKETS-2]`; the model reproduces exactly
  that. -/

/-- Merge of two possibly-empty AABBs (the IEEE `(+inf,-inf)`-slab empty AABB
is represented by `none`, see the section comment). -/
def optMerge : Option (AABB ℚ) → Option (AABB ℚ) → Option (AABB ℚ)
  | none, b => b
  | some a, none => some a
  | some a, some b => some (a.merge b)

/-- The bounds accumulation loops of `build_bvh_tree` (lines 186-189): merge
the AABBs of all primitives in the range into an `AABB::empty()`
accumulator. -/
def boundsOf (prims : List Prim) : Option (AABB ℚ) :=
  prims.foldl (fun acc p => optMerge acc (some p.aabb)) none

/-- The centroid-bounds loop of `build_bvh_tree` (lines 199-202): merge the
centroids of the primitives' AABBs into an `AABB::empty()` accumulator. -/
def centroidBoundsOf (prims : List Prim) : Option (AABB ℚ) :=
  prims.foldl (fun acc p =>
    match acc with
    | none => some (AABB.of_point p.aabb.centroid)
    | some bb => some (bb.merge_with_point p.aabb.centroid)) none

/-- The bucket index of a centroid coordinate (lines 240-250):
`floor(NUM_BUCKETS * (centroid - min) / size)` truncated as `size_t`, with
the `== NUM_BUCKETS` overflow case (offset exactly 1) moved to the last
bucket. -/
def bucketOf (num_buckets : ℕ) (cbAxis : Interval ℚ) (c : ℚ) : ℕ :=
  let offset := (c - cbAxis.min) / cbAxis.size
  let curr_bucket := ⌊(num_buckets : ℚ) * offset⌋₊
  if curr_bucket = num_buckets then curr_bucket - 1 else curr_bucket

/-- BucketInfo (lines 19-24): primitive count and (possibly empty) AABB of
one bucket. -/
structure BucketInfo where
  num_primitives : ℕ
  aabb : Option (AABB ℚ)

/-- The bucket-filling loop (lines 233-255): the info of bucket `b` along
`axis`, namely the count and merged AABB of the primitives whose centroid
falls in bucket `b`. -/
def bucketInfoFor (num_buckets : ℕ) (axis : ℕ) (cb : AABB ℚ)
    (prims : List Prim) (b : ℕ) : BucketInfo :=
  let members := prims.filter (fun p =>
    bucketOf num_buckets (cb.axisGet axis) (p.aabb.centroid.axisCoord axis) = b)
  ⟨members.length, members.foldl (fun acc p => optMerge acc (some p.aabb)) none⟩

/-- Sum of the primitive counts of the buckets listed in `idxs`. -/
def sumCounts (info : ℕ → BucketInfo) (idxs : List ℕ) : ℕ :=
  (idxs.map (fun i => (info i).num_primitives)).sum

/-- Merged AABB of the buckets listed in `idxs` (an `AABB::empty()`
accumulator). -/
def mergeAabbs (info : ℕ → BucketInfo) (idxs : List ℕ) : Option (AABB ℚ) :=
  idxs.foldl (fun acc i => optMerge acc (info i).aabb) none

/-- The SAH cost of splitting after bucket `i` (lines 301-326):
`SA(A) * |A| + SA(B) * |B|` with A = buckets `[0, i]` and B = buckets
`[i, NUM_BUCKETS-2]` (the suffix loop of the source merges `buckets[i]`
itself and never bucket `NUM_BUCKETS-1`; see the section comment). `none`
models the IEEE `inf`/`NaN` costs of empty sides, which the strict
minimum-selection comparison never selects. -/
def costAt (info : ℕ → BucketInfo) (num_buckets i : ℕ) : Option ℚ :=
  let preIdx := List.range (i + 1)
  let sufIdx := (List.range (num_buckets - 1)).drop i
  match mergeAabbs info preIdx, mergeAabbs info sufIdx with
  | some bbA, some bbB =>
    some (bbA.surface_area * (sumCounts info preIdx : ℚ) +
      bbB.surface_area * (sumCounts info sufIdx : ℚ))
  | _, _ => none

/-- The split-selection loop (lines 217-338): try the axes 0, 1, 2 in turn,
skipping axes with an empty centroid range; along each axis try the
`NUM_BUCKETS - 1` split positions in turn, keeping the strictly smallest
cost seen (ties keep the first, so the lowest axis and then the lowest
bucket wins). The running state is `none` while `min_split_cost` is still
infinite; the result is `(min_split_cost, optimal_split_bucket,
optimal_split_axis)`. -/
def selectSplit (num_buckets : ℕ) (cb : AABB ℚ) (prims : List Prim) :
    Option (ℚ × ℕ × ℕ) :=
  [0, 1, 2].foldl (fun st axis =>
    if (cb.axisGet axis).is_empty then st
    else
      let info := bucketInfoFor num_buckets axis cb prims
      (List.range (num_buckets - 1)).foldl (fun st2 i =>
        match costAt info num_buckets i with
        | some c =>
          match st2 with
          | none => some (c, i, axis)
          | some best => if c < best.1 then some (c, i, axis) else st2
        | none => st2) st) none

/-- BVHTreeNode (lines 34-97): the binary BVH tree. Leaves carry their
primitive span (as the list of primitives), interior nodes their split axis
and children; every node carries its AABB. -/
inductive BVHTree where
  | leaf (aabb : AABB ℚ) (prims : List Prim)
  | node (aabb : AABB ℚ) (split_axis : ℕ) (left right : BVHTree)

/-- BVH::build_bvh_tree (lines 180-412), fuel-driven. `none` signals fuel
exhaustion or an empty primitive range, neither of which occurs when called
as the constructor calls it (proved below). -/
def build_bvh_tree (num_buckets max_primitives_in_node : ℕ) :
    ℕ → List Prim → Option BVHTree
  | 0, _ => none
  | fuel + 1, prims =>
    match boundsOf prims with
    | none => none
    | some curr_bounds =>
      if prims.length = 1 then some (.leaf curr_bounds prims)
      else
        match centroidBoundsOf prims with
        | none => none
        | some cb =>
          match selectSplit num_buckets cb prims with
          | none => some (.leaf curr_bounds prims)
          | some best =>
            if prims.length > max_primitives_in_node ∨
                best.1 < (prims.length : ℚ) then
              let part := prims.partition (fun p =>
                bucketOf num_buckets (cb.axisGet best.2.2)
                  (p.aabb.centroid.axisCoord best.2.2) ≤ best.2.1)
              match build_bvh_tree num_buckets max_primitives_in_node
                  fuel part.1,
                build_bvh_tree num_buckets max_primitives_in_node
                  fuel part.2 with
              | some l, some r => some (.node curr_bounds best.2.2 l r)
              | _, _ => none
            else some (.leaf curr_bounds prims)

namespace BVHTree

/-- Number of nodes of a BVH tree (`total_bvhnodes`). -/
def countNodes : BVHTree → ℕ
  | .leaf _ _ => 1
  | .node _ _ l r => 1 + l.countNodes + r.countNodes

/-- Number of primitives contained in the leaves of a BVH (sub)tree. -/
def countPrims : BVHTree → ℕ
  | .leaf _ ps => ps.length
  | .node _ _ l r => l.countPrims + r.countPrims

/-- The primitives of a BVH tree in leaf preorder. Because the source build
partitions the primitive array in place and hands contiguous subspans to the
children, this list is exactly the permuted `BVH::primitives` array. -/
def leavesConcat : BVHTree → List Prim
  | .leaf _ ps => ps
  | .node _ _ l r => l.leavesConcat ++ r.leavesConcat

/-- Depth of a BVH tree (a leaf has depth 1). -/
def depth : BVHTree → ℕ
  | .leaf _ _ => 1
  | .node _ _ l r => 1 + Max.max l.depth r.depth

end BVHTree

/-- LinearBVHNode (lines 117-158): a flattened node. `index_slot` models the
union `first_primitive_index | second_child_index` (the former meaningful
when `num_primitives > 0`, i.e. for leaves; the latter for interior
nodes). -/
structure LinearBVHNode where
  aabb : AABB ℚ
  index_slot : ℕ
  num_primitives : ℕ
  split_axis : ℕ

instance : Inhabited LinearBVHNode := ⟨⟨⟨⟨0, 0⟩, ⟨0, 0⟩, ⟨0, 0⟩⟩, 0, 0, 0⟩⟩

/-- BVH::flatten_bvh_tree (lines 419-501): write the tree in preorder.
`curr_index` is the index at which this subtree starts (the source's cursor
value on entry); `first_prim_index` is the number of primitives already
written by earlier leaves, which is what the source's span-pointer
subtraction `tree_node->primitives.data() - primitives.data()` computes.
An interior node's `second_child_index` is the cursor after its left
subtree, `curr_index + 1 + left.countNodes`. -/
def flatten_bvh_tree : BVHTree → ℕ → ℕ → List LinearBVHNode
  | .leaf bb ps, _, first_prim_index => [⟨bb, first_prim_index, ps.length, 0⟩]
  | .node bb ax l r, curr_index, first_prim_index =>
    ⟨bb, curr_index + 1 + l.countNodes, 0, ax⟩ ::
      (flatten_bvh_tree l (curr_index + 1) first_prim_index ++
        flatten_bvh_tree r (curr_index + 1 + l.countNodes)
          (first_prim_index + l.countPrims))

/-- BVH: the flattened hierarchy: the (permuted) primitives array and the
preorder node array. -/
structure BVH where
  primitives : List Prim
  linear_bvh_nodes : List LinearBVHNode

/-- The BVH constructor (lines 705-728) composed with the flattening: build
the tree over the primitives with the given bucket and leaf-size parameters
(the constructor defaults are 32 and 12), then flatten. `none` only on the
unreachable fuel/empty-range paths. -/
def BVH.construct (world : List Prim)
    (num_buckets max_primitives_in_node : ℕ) : Option BVH :=
  match build_bvh_tree num_buckets max_primitives_in_node
      (world.length + 1) world with
  | some t => some ⟨t.leavesConcat, flatten_bvh_tree t 0 0⟩
  | none => none

/-! ### BVH traversal (from `src/src/bvh.h`, lines 536-666) -/

/-- The per-ray precomputation `inv_ray_dir` (line 555). -/
def invRayDir (ray : Ray3D ℚ) : Vec3D ℚ :=
  ⟨1 / ray.dir.x, 1 / ray.dir.y, 1 / ray.dir.z⟩

/-- The per-ray precomputation `dir_is_negative` (lines 557-561). -/
def dirIsNegative (ray : Ray3D ℚ) : Vec3D Bool :=
  ⟨decide (ray.dir.x < 0), decide (ray.dir.y < 0), decide (ray.dir.z < 0)⟩

/-- Indexing of the `dir_is_negative` array by the split axis. -/
def axisFlag (v : Vec3D Bool) (axis : ℕ) : Bool :=
  if axis = 0 then v.x else if axis = 1 then v.y else v.z

/-- The state of one iteration of the traversal loop:
`curr_node_index`, the DFS call stack (`dfs_callstack` with
`stack_next_index` = its length; the source's fixed 128-entry array is
modelled as a list, and claim C9 establishes the in-bounds discipline), the
shrinking `ray_times.max`, and the best hit so far. -/
structure TravState where
  curr_node_index : ℕ
  dfs_callstack : List ℕ
  ray_times_max : ℚ
  result : Option (hit_info ℚ)

/-- The leaf loop of the traversal (lines 586-603): test the contiguous
primitive range of a leaf, shrinking `ray_times.max` at every hit. -/
def leafFold (prims : List Prim) (ray : Ray3D ℚ) (t_min : ℚ)
    (first num : ℕ) (st : ℚ × Option (hit_info ℚ)) :
    ℚ × Option (hit_info ℚ) :=
  (List.range num).foldl (fun acc j =>
    match (prims.getD (first + j) default).hit ray ⟨t_min, acc.1⟩ with
    | some curr => (curr.hit_time, some curr)
    | none => acc) st

/-- One iteration of the traversal `while` loop (lines 568-663): test the
current node's AABB over `(t_min, ray_times_max)`; on a miss pop (or finish
with the result when the stack is empty); on a leaf run the leaf loop then
pop; on an interior node visit the near child first, pushing the far one,
choosing by `dir_is_negative[split_axis]`. -/
def BVH.step (b : BVH) (ray : Ray3D ℚ) (t_min : ℚ) (inv : Vec3D ℚ)
    (dneg : Vec3D Bool) (st : TravState) :
    TravState ⊕ Option (hit_info ℚ) :=
  let curr_node := b.linear_bvh_nodes.getD st.curr_node_index default
  if curr_node.aabb.is_hit_by_optimized ray ⟨t_min, st.ray_times_max⟩ inv
      dneg then
    if curr_node.num_primitives > 0 then
      let res := leafFold b.primitives ray t_min curr_node.index_slot
        curr_node.num_primitives (st.ray_times_max, st.result)
      match st.dfs_callstack with
      | [] => .inr res.2
      | c :: rest => .inl ⟨c, rest, res.1, res.2⟩
    else
      if axisFlag dneg curr_node.split_axis then
        .inl ⟨curr_node.index_slot, (st.curr_node_index + 1) ::
          st.dfs_callstack, st.ray_times_max, st.result⟩
      else
        .inl ⟨st.curr_node_index + 1, curr_node.index_slot ::
          st.dfs_callstack, st.ray_times_max, st.result⟩
  else
    match st.dfs_callstack with
    | [] => .inr st.result
    | c :: rest => .inl ⟨c, rest, st.ray_times_max, st.result⟩

/-- Run at most `k` iterations of the traversal loop, returning either the
state reached (`inl`) or the returned result (`inr`). -/
def BVH.iterate (b : BVH) (ray : Ray3D ℚ) (t_min : ℚ) (inv : Vec3D ℚ)
    (dneg : Vec3D Bool) : ℕ → TravState → TravState ⊕ Option (hit_info ℚ)
  | 0, st => .inl st
  | k + 1, st =>
    match b.step ray t_min inv dneg st with
    | .inl st' => b.iterate ray t_min inv dneg k st'
    | .inr r => .inr r

/-- BVH::hit_by (lines 536-666): run the iterative DFS from the root with an
empty stack. The loop visits each node at most once, so
`linear_bvh_nodes.length + 1` iterations always suffice for the arrays the
constructor produces (proved below); the `getD none` covers the
fuel-exhaustion case, unreachable on those arrays. -/
def BVH.hit_by (b : BVH) (ray : Ray3D ℚ) (ray_times : Interval ℚ) :
    Option (hit_info ℚ) :=
  match b.iterate ray ray_times.min (invRayDir ray) (dirIsNegative ray)
      (b.linear_bvh_nodes.length + 1) ⟨0, [], ray_times.max, none⟩ with
  | .inl _ => none
  | .inr r => r

/-- The recursive specification of the traversal on the tree: process a
subtree against the state `(ray_times_max, result)`. A pruned subtree (AABB
test false) leaves the state unchanged; a leaf runs the primitive fold; an
interior node processes the near child (by `dir_is_negative[split_axis]`)
and then the far child. The iterative loop computes exactly this (proved
below). -/
def BVHTree.treeHit (primsArr : List Prim) (ray : Ray3D ℚ) (t_min : ℚ)
    (inv : Vec3D ℚ) (dneg : Vec3D Bool) :
    BVHTree → ℚ × Option (hit_info ℚ) → ℚ × Option (hit_info ℚ)
  | .leaf bb ps, st =>
    if bb.is_hit_by_optimized ray ⟨t_min, st.1⟩ inv dneg then
      foldHits ray t_min ps st
    else st
  | .node bb ax l r, st =>
    if bb.is_hit_by_optimized ray ⟨t_min, st.1⟩ inv dneg then
      if axisFlag dneg ax then
        treeHit primsArr ray t_min inv dneg l
          (treeHit primsArr ray t_min inv dneg r st)
      else
        treeHit primsArr ray t_min inv dneg r
          (treeHit primsArr ray t_min inv dneg l st)
    else st

/-! ### Well-formedness of built trees, and the array/tree correspondence -/

/-- Geometric containment of one AABB in another, axis-interval-wise. -/
def AABB.le {α : Type} [LinearOrderedField α] (a b : AABB α) : Prop :=
  (b.x.min ≤ a.x.min ∧ a.x.max ≤ b.x.max) ∧
    (b.y.min ≤ a.y.min ∧ a.y.max ≤ b.y.max) ∧
    (b.z.min ≤ a.z.min ∧ a.z.max ≤ b.z.max)

/-- Well-formedness of a built BVH tree: every leaf holds at least one
primitive, and every node's AABB contains the AABBs of all primitives of its
subtree. `build_bvh_tree` establishes this (proved below): leaves are only
made from nonempty ranges, and every node's AABB is the merge of its range's
primitive AABBs. -/
def BVHTree.WFB : BVHTree → Prop
  | .leaf bb ps => ps ≠ [] ∧ ∀ p ∈ ps, AABB.le p.aabb bb
  | .node bb _ l r => l.WFB ∧ r.WFB ∧
      ∀ p ∈ l.leavesConcat ++ r.leavesConcat, AABB.le p.aabb bb

/-- The order in which a traversal with the given negativity flags visits
the primitives of a tree: near child first (the right child when
`dir_is_negative[split_axis]` holds, since the build puts the
upper-coordinate part on the right). -/
def BVHTree.visitList (dneg : Vec3D Bool) : BVHTree → List Prim
  | .leaf _ ps => ps
  | .node _ ax l r =>
    if axisFlag dneg ax then
      r.visitList dneg ++ l.visitList dneg
    else
      l.visitList dneg ++ r.visitList dneg

/-- The correspondence between a subtree and the flattened arrays of a
`BVH`: the node array from index `i` on starts with the subtree's preorder
flattening, and the primitive array from index `fp` on starts with the
subtree's leaf primitives. `BVH.construct` establishes `Layout t 0 0` for
the whole tree, and the two children of a laid-out node are laid out at the
offsets the flattening gives them. -/
def BVH.Layout (b : BVH) (t : BVHTree) (i fp : ℕ) : Prop :=
  (b.linear_bvh_nodes.drop i).take t.countNodes = flatten_bvh_tree t i fp ∧
    (b.primitives.drop fp).take t.countPrims = t.leavesConcat

/-! ### Concrete inputs used by counterexamples and witnesses

Two tiny rational-coordinate parallelograms that a single ray hits at the
same time `t = 1`: `paraXY` lies in the plane `z = 1/1000` (outward normal
`(0,0,1)`, material handle 1) and `paraYZ` in the plane `x = 1/4000`
(outward normal `(1,0,0)`, material handle 2); they cross at the point
`(1/4000, 0, 1/1000)`. Their `unit_plane_normal`/`scaled_plane_normal`
fields hold exactly the values the C++ constructor computes for these sides
(the plane normals `cross(side1, side2) = (0,0,1e-6)` and `(1e-6,0,0)` have
rational magnitude `1e-6`, so `unit_plane_normal = n / |n|` and
`scaled_plane_normal = n / |n|^2` are the exact rationals written here); the
`aabb` field is computed by the constructor's own AABB expression. -/

/-- The parallelogram in the plane `z = 1/1000` spanning
`x, y ∈ [-1/2000, 1/2000]`. -/
def paraXY : Parallelogram ℚ :=
  { vertex := ⟨-1/2000, -1/2000, 1/1000⟩
    side1 := ⟨1/1000, 0, 0⟩
    side2 := ⟨0, 1/1000, 0⟩
    material := 1
    unit_plane_normal := ⟨0, 0, 1⟩
    scaled_plane_normal := ⟨0, 0, 1000000⟩
    aabb := (AABB.from_points
        [⟨-1/2000, -1/2000, 1/1000⟩,
          (Vec3D.mk (-1/2000 : ℚ) (-1/2000) (1/1000)).add ⟨1/1000, 0, 0⟩,
          (Vec3D.mk (-1/2000 : ℚ) (-1/2000) (1/1000)).add ⟨0, 1/1000, 0⟩,
          ((Vec3D.mk (-1/2000 : ℚ) (-1/2000) (1/1000)).add
            ⟨1/1000, 0, 0⟩).add ⟨0, 1/1000, 0⟩]).ensure_min_axis_length
      (1/10000) }

/-- The parallelogram in the plane `x = 1/4000` spanning
`y ∈ [-1/2000, 1/2000]`, `z ∈ [1/2000, 3/2000]`. -/
def paraYZ : Parallelogram ℚ :=
  { vertex := ⟨1/4000, -1/2000, 1/2000⟩
    side1 := ⟨0, 1/1000, 0⟩
    side2 := ⟨0, 0, 1/1000⟩
    material := 2
    unit_plane_normal := ⟨1, 0, 0⟩
    scaled_plane_normal := ⟨1000000, 0, 0⟩
    aabb := (AABB.from_points
        [⟨1/4000, -1/2000, 1/2000⟩,
          (Vec3D.mk (1/4000 : ℚ) (-1/2000) (1/2000)).add ⟨0, 1/1000, 0⟩,
          (Vec3D.mk (1/4000 : ℚ) (-1/2000) (1/2000)).add ⟨0, 0, 1/1000⟩,
          ((Vec3D.mk (1/4000 : ℚ) (-1/2000) (1/2000)).add
            ⟨0, 1/1000, 0⟩).add ⟨0, 0, 1/1000⟩]).ensure_min_axis_length
      (1/10000) }

/-- The two-parallelogram world, in the order the scene holds it. -/
def tieWorld : List Prim :=
  [Prim.ofParallelogram paraXY, Prim.ofParallelogram paraYZ]

/-- A ray through the crossing point `(1/4000, 0, 1/1000)` at time 1, with
all direction components nonzero and the x and z components negative. -/
def tieRay : Ray3D ℚ :=
  ⟨⟨1 + 1/4000, -1/100, 4 + 1/1000⟩, ⟨-1, 1/100, -4⟩⟩

/-- The query interval for the tie counterexample. -/
def tieTimes : Interval ℚ := ⟨0, 100⟩

/-- An AABB whose x- and y-slab time intervals for `touchRay` touch at a
single point (`t = 2`): the basic slab test reports a miss, the optimized
one a hit. -/
def touchBox : AABB ℚ := ⟨⟨1, 2⟩, ⟨2, 3⟩, ⟨0, 10⟩⟩

/-- The diagonal ray for the slab-test counterexample. -/
def touchRay : Ray3D ℚ := ⟨⟨0, 0, 0⟩, ⟨1, 1, 1⟩⟩

/-- A box and ray that both slab tests report as a hit (for the witness of
the amended slab-consistency claim). -/
def slabBox : AABB ℚ := ⟨⟨0, 1⟩, ⟨0, 1⟩, ⟨0, 1⟩⟩

/-- The ray for the slab-test witness. -/
def slabRay : Ray3D ℚ := ⟨⟨-1, -1, -1⟩, ⟨1, 1, 1⟩⟩

/-- A metal with fuzz 0 (perfect mirror) for the metal-scatter
counterexample. -/
noncomputable def mirrorMetal : Metal := Metal.construct (RGB.from_mag 1 0 0) 0

/-- An incident ray travelling tangentially to the surface of the metal hit
record `grazeInfo` (its direction is orthogonal to the stored normal). -/
def grazeRay : Ray3D ℝ := ⟨⟨0, 0, 0⟩, ⟨1, 0, 0⟩⟩

/-- The hit record for the tangential metal scatter: normal `(0,0,1)`. -/
def grazeInfo : hit_info ℝ := ⟨1, ⟨0, 0, 0⟩, ⟨0, 0, 1⟩, true, 0⟩

/-- The sampled random unit vector for the tangential metal scatter. -/
def grazeRand : Vec3D ℝ := ⟨0, 1, 0⟩

/-- A material table whose every entry absorbs every ray and emits white:
the behavior of a `DiffuseLight` with color `(1,1,1)` and intensity 1. -/
noncomputable def lightMats : ℕ → MaterialImpl :=
  fun _ => ⟨fun _ _ => none, RGB.from_mag 1 1 1⟩

/-- A world whose every intersection query hits a fixed surface with
material handle 0. -/
def lightWorld : World := fun _ => some ⟨1, ⟨0, 0, 0⟩, ⟨0, 0, 1⟩, true, 0⟩

/-- The ray shot into `lightWorld`. -/
def lightRay : Ray3D ℝ := ⟨⟨0, 0, 1⟩, ⟨0, 0, -1⟩⟩

/-- A material table whose entry 0 scatters deterministically straight up
with attenuation `(1/2, 1/4, 1/8)` and emits nothing; used by the
ray-color witness. -/
noncomputable def bounceMats : ℕ → MaterialImpl :=
  fun _ => ⟨fun _ info => some ⟨⟨info.hit_point, ⟨0, 0, 1⟩⟩, RGB.from_mag (1/2) (1/4) (1/8)⟩,
    RGB.zero⟩

/-- The unit sphere at `(0,0,-2)` with material handle 0, for the hit-record
invariant witness. -/
def probeSphere : Sphere := ⟨⟨0, 0, -2⟩, 1, 0⟩

/-- A ray down the z-axis hitting `probeSphere` at `t = 1`. -/
def probeRay : Ray3D ℝ := ⟨⟨0, 0, 0⟩, ⟨0, 0, -1⟩⟩

/-- The query interval for the sphere witness. -/
def probeTimes : Interval ℝ := ⟨0, 10⟩

/-- The unit-square parallelogram in the plane `z = -1` (over `ℝ`, built by
the translated constructor), for the hit-record invariant witness. -/
noncomputable def probePara : Parallelogram ℝ :=
  Parallelogram.construct ⟨-1/2, -1/2, -1⟩ ⟨1, 0, 0⟩ ⟨0, 1, 0⟩ 3

/-- The hit record `probeSphere` produces for `probeRay` over `probeTimes`
(hand-computed; verified by `probeSphere_hit` below). -/
def probeHit : hit_info ℝ := ⟨1, ⟨0, 0, -1⟩, ⟨0, 0, 1⟩, true, 0⟩

/-- The hit record `probePara` produces for `probeRay` over `probeTimes`. -/
def probeParaHit : hit_info ℝ := ⟨1, ⟨0, 0, -1⟩, ⟨0, 0, 1⟩, true, 3⟩

/-- The record `Scene::hit_by` returns on the tie world: `paraXY`'s record
(material handle 1), because `paraXY` comes first in the scene list and the
later equal-time hit of `paraYZ` fails the strict `<` comparison. -/
def tieHitXY : hit_info ℚ := ⟨1, ⟨1/4000, 0, 1/1000⟩, ⟨0, 0, 1⟩, true, 1⟩

/-- The record `BVH::hit_by` returns on the tie world: `paraYZ`'s record
(material handle 2), because the traversal visits the near child (which
holds `paraYZ` for this ray's negative x-direction) first. -/
def tieHitYZ : hit_info ℚ := ⟨1, ⟨1/4000, 0, 1/1000⟩, ⟨1, 0, 0⟩, true, 2⟩

/-- The flattened BVH the constructor builds over the tie world with the
source's default parameters (32 buckets, leaf size 12). The construction
succeeds, so the fallback branch is dead. -/
def tieBVH : BVH :=
  match BVH.construct tieWorld 32 12 with
  | some b => b
  | none => ⟨[], []⟩

/-- The BVH tree the builder produces over the tie world (an interior root
with two one-primitive leaves; depth 2). The fallback branch is dead. -/
def tieTree : BVHTree :=
  match build_bvh_tree 32 12 (tieWorld.length + 1) tieWorld with
  | some t => t
  | none => .leaf ⟨⟨0, 0⟩, ⟨0, 0⟩, ⟨0, 0⟩⟩ []

/-- The traversal state after one step of `BVH::hit_by` on the tie BVH: the
ray's x-direction is negative, so the near child is the right child (node
index 2) and the far child (node index 1) is pushed on the DFS stack. -/
def tieStackState : TravState := ⟨2, [1], 100, none⟩

/-- A concrete AABB with axis sizes 1, 2, 3, on which the surface-area
formula of the source evaluates to 28 instead of the geometric surface area
22. -/
def sizesBox : AABB ℚ := ⟨⟨0, 1⟩, ⟨0, 2⟩, ⟨0, 3⟩⟩

/-- A concrete extended-rational AABB with ordinary finite slabs, used by
the merge-algebra witness. -/
def finiteEBox : AABB EDouble :=
  ⟨⟨((0 : ℚ) : WithTop ℚ), ((1 : ℚ) : WithTop ℚ)⟩,
   ⟨((-2 : ℚ) : WithTop ℚ), ((3 : ℚ) : WithTop ℚ)⟩,
   ⟨((5 : ℚ) : WithTop ℚ), ((7 : ℚ) : WithTop ℚ)⟩⟩

/-! ## Theorems -/

/-- The positive infinity of `EDouble` is the top of its order. -/
theorem DOUBLE_INF_eq_top : DOUBLE_INF = (⊤ : EDouble) := rfl

/-- Merging with the canonical empty interval on the right is the
identity. -/
theorem Interval.merge_empty_right (i : Interval EDouble) :
    Interval.merge i Interval.empty = i := by
  cases i with
  | mk mn mx =>
    simp [Interval.merge, Interval.empty, DOUBLE_INF_eq_top,
      min_eq_left (le_top : mn ≤ ⊤), max_eq_left (bot_le : ⊥ ≤ mx)]

/-- Merging with the canonical empty interval on the left is the
identity. -/
theorem Interval.merge_empty_left (i : Interval EDouble) :
    Interval.merge Interval.empty i = i := by
  cases i with
  | mk mn mx =>
    simp [Interval.merge, Interval.empty, DOUBLE_INF_eq_top,
      min_eq_right (le_top : mn ≤ ⊤), max_eq_right (bot_le : ⊥ ≤ mx)]

/-- Interval merging is idempotent. -/
theorem Interval.merge_self (i : Interval EDouble) :
    Interval.merge i i = i := by
  cases i with
  | mk mn mx => simp [Interval.merge]

/-- C8: merging is idempotent, associative, and has the empty value as
identity: for every AABB (in particular every one whose axis intervals are
well-formed or canonically empty), `merge(A, A) = A` and
`merge(A, AABB::empty()) = A`; and `Interval::merge` is associative with
`Interval::empty()` as a two-sided identity. -/
theorem C8_merge_algebra :
    (∀ A : AABB EDouble,
      ((A.x.min ≤ A.x.max ∨ A.x = Interval.empty) ∧
        (A.y.min ≤ A.y.max ∨ A.y = Interval.empty) ∧
        (A.z.min ≤ A.z.max ∨ A.z = Interval.empty)) →
      AABB.merge A A = A ∧ AABB.merge A AABB.empty = A) ∧
    (∀ a b c : Interval EDouble,
      Interval.merge (Interval.merge a b) c =
        Interval.merge a (Interval.merge b c)) ∧
    (∀ i : Interval EDouble,
      Interval.merge i Interval.empty = i ∧
        Interval.merge Interval.empty i = i) := by
  refine ⟨fun A _ => ⟨?_, ?_⟩, fun a b c => ?_, fun i =>
    ⟨Interval.merge_empty_right i, Interval.merge_empty_left i⟩⟩
  · cases A with
    | mk ax ay az =>
      simp [AABB.merge, Interval.merge_self]
  · cases A with
    | mk ax ay az =>
      simp [AABB.merge, AABB.empty, Interval.merge_empty_right]
  · simp [Interval.merge, min_assoc, max_assoc]

/-- Witness for C8 at the concrete box `finiteEBox`. -/
theorem C8_merge_algebra_witness :
    AABB.merge finiteEBox finiteEBox = finiteEBox ∧
      AABB.merge finiteEBox AABB.empty = finiteEBox :=
  C8_merge_algebra.1 finiteEBox
    ⟨Or.inl (by decide), Or.inl (by decide), Or.inl (by decide)⟩

/-- C2 (code bug): on the box with axis sizes 1, 2, 3 the source's
`AABB::surface_area()` returns `2*(1*1 + 2*2 + 3*3) = 28`, while the
surface area of the box — the value `2*(xy + xz + yz)` named by the
function's own documentation and used as SA by the spec — is 22. The
function squares each size instead of multiplying pairs. -/
theorem C2_surface_area_bug :
    AABB.surface_area sizesBox = 28 ∧
      2 * ((1 : ℚ) * 2 + 1 * 3 + 2 * 3) = 22 ∧ (28 : ℚ) ≠ 22 := by
  refine ⟨?_, by norm_num, by norm_num⟩
  norm_num [AABB.surface_area, Interval.size, sizesBox]

/-- C6 (code bug): `operator+ (RGB, RGB)` at `src/rgb.h:100` passes
`a.b + b.b` as the green component and `a.g + b.g` as the blue component of
`RGB::from_mag`, so addition is not componentwise: adding pure green
`(0,1,0)` to black yields `(0,0,1)`, whose green component differs from
`a.g + b.g`. -/
theorem C6_rgb_add_swaps_green_blue :
    RGB.add (RGB.from_mag (0 : ℚ) 1 0) (RGB.from_mag 0 0 0) =
        RGB.from_mag 0 0 1 ∧
      (RGB.add (RGB.from_mag (0 : ℚ) 1 0) (RGB.from_mag 0 0 0)).g ≠
        (RGB.from_mag (0 : ℚ) 1 0).g + (RGB.from_mag (0 : ℚ) 0 0).g := by
  refine ⟨?_, ?_⟩ <;> norm_num [RGB.add, RGB.from_mag]

/-- C10: the `Metal` constructor stores `fuzz_factor = fmin(fuzz, 1)`:
arguments above 1 are clamped down to 1, while arguments at most 1 —
including negative ones — are stored unchanged (there is no lower clamp). -/
theorem C10_metal_fuzz_clamp :
    ∀ (c : RGB ℝ) (f : ℝ),
      (Metal.construct c f).fuzz_factor = Min.min f 1 ∧
        (1 < f → (Metal.construct c f).fuzz_factor = 1) ∧
        (f ≤ 1 → (Metal.construct c f).fuzz_factor = f) := by
  intro c f
  refine ⟨rfl, fun h => ?_, fun h => ?_⟩
  · simp [Metal.construct, min_eq_right (le_of_lt h)]
  · simp [Metal.construct, min_eq_left h]

/-- Witness for C10: fuzz 2 is clamped to 1; fuzz −1 is stored unchanged. -/
theorem C10_metal_fuzz_clamp_witness :
    (Metal.construct (RGB.from_mag 1 0 0) 2).fuzz_factor = 1 ∧
      (Metal.construct (RGB.from_mag 1 0 0) (-1)).fuzz_factor = -1 :=
  ⟨(C10_metal_fuzz_clamp (RGB.from_mag 1 0 0) 2).2.1 (by norm_num),
    (C10_metal_fuzz_clamp (RGB.from_mag 1 0 0) (-1)).2.2 (by norm_num)⟩

/-! ### The slab tests -/

section SlabLemmas

variable {α : Type} [LinearOrderedField α]

/-- A `t > acc` update is a `max`. -/
theorem ite_gt_eq_max (a b : α) : (if b > a then b else a) = Max.max a b := by
  rcases le_or_lt b a with h | h
  · simp [not_lt.2 h, max_eq_left h]
  · simp [h, max_eq_right h.le]

/-- A `t < acc` update is a `min`. -/
theorem ite_lt_eq_min (a b : α) : (if b < a then b else a) = Min.min a b := by
  rcases le_or_lt a b with h | h
  · simp [not_lt.2 h, min_eq_left h]
  · simp [h, min_eq_right h.le]

/-- The per-axis step of the basic slab test in `max`/`min` normal form:
the new interval is the old one intersected with the (swap-ordered) axis
entry/exit times. -/
theorem is_hit_by_axis_eq (iv : Interval α) (o d : α) (rt : Interval α) :
    AABB.is_hit_by_axis iv o d rt =
      ⟨Max.max rt.min
        (if 1 / d < 0 then (iv.max - o) * (1 / d) else (iv.min - o) * (1 / d)),
       Min.min rt.max
        (if 1 / d < 0 then (iv.min - o) * (1 / d) else (iv.max - o) * (1 / d))⟩ := by
  simp only [AABB.is_hit_by_axis]
  rcases lt_or_ge (1 / d) 0 with h | h
  · simp only [if_pos h, ite_gt_eq_max, ite_lt_eq_min]
  · simp only [if_neg (not_lt.2 h), ite_gt_eq_max, ite_lt_eq_min]

/-- The basic per-axis step never lowers the running minimum. -/
theorem is_hit_by_axis_min_le (iv : Interval α) (o d : α) (rt : Interval α) :
    rt.min ≤ (AABB.is_hit_by_axis iv o d rt).min := by
  rw [is_hit_by_axis_eq]; exact le_max_left _ _

/-- The basic per-axis step never raises the running maximum. -/
theorem is_hit_by_axis_max_le (iv : Interval α) (o d : α) (rt : Interval α) :
    (AABB.is_hit_by_axis iv o d rt).max ≤ rt.max := by
  rw [is_hit_by_axis_eq]; exact min_le_left _ _

/-- The basic slab test returns `true` exactly when the interval obtained by
intersecting `ray_times` with the three per-axis time intervals is strictly
nonempty. (The intermediate short-circuit checks are subsumed: the running
interval only shrinks.) -/
theorem is_hit_by_eq_true_iff (bb : AABB α) (ray : Ray3D α)
    (rt : Interval α) :
    bb.is_hit_by ray rt = true ↔
      (AABB.is_hit_by_axis bb.z ray.origin.z ray.dir.z
          (AABB.is_hit_by_axis bb.y ray.origin.y ray.dir.y
            (AABB.is_hit_by_axis bb.x ray.origin.x ray.dir.x rt))).min <
        (AABB.is_hit_by_axis bb.z ray.origin.z ray.dir.z
          (AABB.is_hit_by_axis bb.y ray.origin.y ray.dir.y
            (AABB.is_hit_by_axis bb.x ray.origin.x ray.dir.x rt))).max := by
  unfold AABB.is_hit_by
  set r1 := AABB.is_hit_by_axis bb.x ray.origin.x ray.dir.x rt with hr1
  set r2 := AABB.is_hit_by_axis bb.y ray.origin.y ray.dir.y r1 with hr2
  set r3 := AABB.is_hit_by_axis bb.z ray.origin.z ray.dir.z r2 with hr3
  by_cases h1 : r1.max ≤ r1.min
  · have hmono : ¬ r3.min < r3.max := by
      have a1 : r2.min ≤ r3.min := by
        rw [hr3]; exact is_hit_by_axis_min_le _ _ _ _
      have a2 : r1.min ≤ r2.min := by
        rw [hr2]; exact is_hit_by_axis_min_le _ _ _ _
      have b1 : r3.max ≤ r2.max := by
        rw [hr3]; exact is_hit_by_axis_max_le _ _ _ _
      have b2 : r2.max ≤ r1.max := by
        rw [hr2]; exact is_hit_by_axis_max_le _ _ _ _
      exact not_lt.2 (le_trans (le_trans b1 b2) (le_trans h1 (le_trans a2 a1)))
    simp [h1, hmono]
  · by_cases h2 : r2.max ≤ r2.min
    · have hmono : ¬ r3.min < r3.max := by
        have a1 : r2.min ≤ r3.min := by
          rw [hr3]; exact is_hit_by_axis_min_le _ _ _ _
        have b1 : r3.max ≤ r2.max := by
          rw [hr3]; exact is_hit_by_axis_max_le _ _ _ _
        exact not_lt.2 (le_trans b1 (le_trans h2 a1))
      simp [h1, h2, hmono]
    · by_cases h3 : r3.max ≤ r3.min
      · simp [h1, h2, h3, not_lt.2 h3]
      · simp [h1, h2, h3, not_le.1 h3]

/-- For a nonzero direction component, the optimized test's near-plane time
equals the basic test's (swap-ordered) lower axis time. -/
theorem optimized_near_time (iv : Interval α) (o d : α) (hd : d ≠ 0) :
    (iv.get (decide (d < 0)) - o) * (1 / d) =
      (if 1 / d < 0 then (iv.max - o) * (1 / d) else (iv.min - o) * (1 / d)) := by
  rcases lt_or_gt_of_ne hd with h | h
  · simp [Interval.get, h, one_div_neg.mpr h]
  · simp [Interval.get, not_lt.2 h.le, not_lt.2 (one_div_pos.mpr h).le]

/-- For a nonzero direction component, the optimized test's far-plane time
equals the basic test's (swap-ordered) upper axis time. -/
theorem optimized_far_time (iv : Interval α) (o d : α) (hd : d ≠ 0) :
    (iv.get (!decide (d < 0)) - o) * (1 / d) =
      (if 1 / d < 0 then (iv.min - o) * (1 / d) else (iv.max - o) * (1 / d)) := by
  rcases lt_or_gt_of_ne hd with h | h
  · simp [Interval.get, h, one_div_neg.mpr h]
  · simp [Interval.get, not_lt.2 h.le, not_lt.2 (one_div_pos.mpr h).le]

end SlabLemmas

/-- C3 (amended): for every AABB, every interval, and every ray whose
direction components are all nonzero, whenever `AABB::is_hit_by` returns
`true`, `AABB::is_hit_by_optimized` (with the precomputed reciprocal
direction and negativity flags) also returns `true`. The converse fails:
the optimized test also accepts configurations where the per-axis time
intervals only touch at a boundary point (see the counterexample). -/
theorem C3_slab_tests_amended (bb : AABB ℚ) (ray : Ray3D ℚ)
    (rt : Interval ℚ) (hx : ray.dir.x ≠ 0) (hy : ray.dir.y ≠ 0)
    (hz : ray.dir.z ≠ 0) (h : bb.is_hit_by ray rt = true) :
    bb.is_hit_by_optimized ray rt (invRayDir ray) (dirIsNegative ray) =
      true := by
  rw [is_hit_by_eq_true_iff] at h
  rw [is_hit_by_axis_eq, is_hit_by_axis_eq, is_hit_by_axis_eq] at h
  simp only [Interval.mk.injEq] at h
  set aX := (if 1 / ray.dir.x < 0 then (bb.x.max - ray.origin.x) * (1 / ray.dir.x)
    else (bb.x.min - ray.origin.x) * (1 / ray.dir.x)) with haX
  set bX := (if 1 / ray.dir.x < 0 then (bb.x.min - ray.origin.x) * (1 / ray.dir.x)
    else (bb.x.max - ray.origin.x) * (1 / ray.dir.x)) with hbX
  set aY := (if 1 / ray.dir.y < 0 then (bb.y.max - ray.origin.y) * (1 / ray.dir.y)
    else (bb.y.min - ray.origin.y) * (1 / ray.dir.y)) with haY
  set bY := (if 1 / ray.dir.y < 0 then (bb.y.min - ray.origin.y) * (1 / ray.dir.y)
    else (bb.y.max - ray.origin.y) * (1 / ray.dir.y)) with hbY
  set aZ := (if 1 / ray.dir.z < 0 then (bb.z.max - ray.origin.z) * (1 / ray.dir.z)
    else (bb.z.min - ray.origin.z) * (1 / ray.dir.z)) with haZ
  set bZ := (if 1 / ray.dir.z < 0 then (bb.z.min - ray.origin.z) * (1 / ray.dir.z)
    else (bb.z.max - ray.origin.z) * (1 / ray.dir.z)) with hbZ
  have h' : Max.max (Max.max (Max.max rt.min aX) aY) aZ <
      Min.min (Min.min (Min.min rt.max bX) bY) bZ := h
  have hmins := max_lt_iff.1 h'
  have hmins2 := max_lt_iff.1 hmins.1
  have hmins3 := max_lt_iff.1 hmins2.1
  have hZlt := lt_min_iff.1 hmins.2
  have hZlt2 := lt_min_iff.1 hZlt.1
  have hZlt3 := lt_min_iff.1 hZlt2.1
  have hYlt := lt_min_iff.1 hmins2.2
  have hYlt2 := lt_min_iff.1 hYlt.1
  have hYlt3 := lt_min_iff.1 hYlt2.1
  have hXlt := lt_min_iff.1 hmins3.2
  have hXlt2 := lt_min_iff.1 hXlt.1
  have hXlt3 := lt_min_iff.1 hXlt2.1
  have hRlt := lt_min_iff.1 hmins3.1
  have hRlt2 := lt_min_iff.1 hRlt.1
  have hRlt3 := lt_min_iff.1 hRlt2.1
  unfold AABB.is_hit_by_optimized invRayDir dirIsNegative
  rw [show (Vec3D.mk (1/ray.dir.x) (1/ray.dir.y) (1/ray.dir.z)).x = 1/ray.dir.x from rfl]
  simp only [optimized_near_time bb.x ray.origin.x ray.dir.x hx,
    optimized_near_time bb.y ray.origin.y ray.dir.y hy,
    optimized_near_time bb.z ray.origin.z ray.dir.z hz,
    optimized_far_time bb.x ray.origin.x ray.dir.x hx,
    optimized_far_time bb.y ray.origin.y ray.dir.y hy,
    optimized_far_time bb.z ray.origin.z ray.dir.z hz]
  rw [← haX, ← hbX, ← haY, ← hbY, ← haZ, ← hbZ]
  have e1 : ¬ (aX > bY ∨ aY > bX) := by
    push_neg
    exact ⟨hXlt2.2.le, hYlt3.2.le⟩
  rw [if_neg e1, ite_gt_eq_max, ite_lt_eq_min]
  have e2 : ¬ (Max.max aX aY > bZ ∨ aZ > Min.min bX bY) := by
    push_neg
    constructor
    · exact (max_lt hXlt.2 hYlt.2).le
    · exact (lt_min hZlt3.2 hZlt2.2).le
  rw [if_neg e2, ite_gt_eq_max, ite_lt_eq_min]
  have f1 : Max.max (Max.max aX aY) aZ < rt.max :=
    max_lt (max_lt hXlt3.1 hYlt3.1) hZlt3.1
  have f2 : rt.min < Min.min (Min.min bX bY) bZ :=
    lt_min (lt_min hRlt3.2 hRlt2.2) hRlt.2
  simp [f1, f2]

/-- Counterexample to C3 as stated: on `touchBox` and `touchRay` with
`t_range = (0, 10)` the basic slab test returns `false` (the x- and y-axis
time intervals `[1,2]` and `[2,3]` intersect only at the point `t = 2`,
which the strict emptiness check discards) while the optimized test returns
`true` — the two functions do not return the same boolean for every input. -/
theorem C3_slab_tests_counterexample :
    touchBox.is_hit_by touchRay ⟨0, 10⟩ = false ∧
      touchBox.is_hit_by_optimized touchRay ⟨0, 10⟩ (invRayDir touchRay)
        (dirIsNegative touchRay) = true := by
  constructor
  · with_unfolding_all rfl
  · with_unfolding_all rfl

/-- Witness for the amended C3 at a concrete hitting configuration. -/
theorem C3_slab_tests_amended_witness :
    slabBox.is_hit_by slabRay ⟨0, 10⟩ = true ∧
      slabBox.is_hit_by_optimized slabRay ⟨0, 10⟩ (invRayDir slabRay)
        (dirIsNegative slabRay) = true := by
  refine ⟨by with_unfolding_all rfl, ?_⟩
  exact C3_slab_tests_amended slabBox slabRay ⟨0, 10⟩ (by norm_num [slabRay])
    (by norm_num [slabRay]) (by norm_num [slabRay]) (by with_unfolding_all rfl)

/-! ### Metal scattering and the path integrator -/

/-- C7 (amended): `Metal::scatter` absorbs the ray (returns `None`) exactly
when `dot(d, hit.unit_surface_normal) < 0` — a STRICT comparison, where
`d = reflect(unit(ray.dir), normal) + fuzz * random_unit_vector` — and
otherwise (including the tangential case `dot = 0`, which the original
claim said is absorbed) returns the scattered ray from the hit point in
direction `d` with attenuation the metal's albedo. -/
theorem C7_metal_scatter_amended :
    ∀ (m : Metal) (ray : Ray3D ℝ) (info : hit_info ℝ) (rv : Vec3D ℝ),
      (m.scatter ray info rv = none ↔
        dot info.unit_surface_normal
          ((reflected ray.dir.unit_vector info.unit_surface_normal).add
            (rv.smul m.fuzz_factor)) < 0) ∧
      (¬ dot info.unit_surface_normal
          ((reflected ray.dir.unit_vector info.unit_surface_normal).add
            (rv.smul m.fuzz_factor)) < 0 →
        m.scatter ray info rv = some ⟨⟨info.hit_point,
          (reflected ray.dir.unit_vector info.unit_surface_normal).add
            (rv.smul m.fuzz_factor)⟩, m.intrinsic_color⟩) := by
  intro m ray info rv
  unfold Metal.scatter
  by_cases h : dot info.unit_surface_normal
      ((reflected ray.dir.unit_vector info.unit_surface_normal).add
        (rv.smul m.fuzz_factor)) < 0
  · simp [h]
  · simp [h]

/-- The perturbed direction of the tangential metal-scatter configuration
is `(1, 0, 0)`, orthogonal to the stored normal `(0, 0, 1)`. -/
theorem graze_scatter_dir :
    (reflected grazeRay.dir.unit_vector grazeInfo.unit_surface_normal).add
      (grazeRand.smul mirrorMetal.fuzz_factor) = ⟨1, 0, 0⟩ := by
  have hm : grazeRay.dir.unit_vector = ⟨1, 0, 0⟩ := by
    simp [grazeRay, Vec3D.unit_vector, Vec3D.mag, Vec3D.mag_squared,
      Vec3D.sdiv, Vec3D.smul]
  have hf : mirrorMetal.fuzz_factor = 0 := by
    simp [mirrorMetal, Metal.construct]
  rw [hm, hf]
  simp [grazeInfo, grazeRand, reflected, Vec3D.sub, Vec3D.smul, Vec3D.add,
    dot]

/-- Counterexample to C7 as stated: in the tangential configuration the
perturbed direction satisfies `dot(d, normal) = 0 ≤ 0`, yet `Metal::scatter`
returns a scattered ray, not `None` (the source absorbs only on the strict
`dot < 0`). -/
theorem C7_metal_scatter_counterexample :
    dot grazeInfo.unit_surface_normal
        ((reflected grazeRay.dir.unit_vector grazeInfo.unit_surface_normal).add
          (grazeRand.smul mirrorMetal.fuzz_factor)) = 0 ∧
      mirrorMetal.scatter grazeRay grazeInfo grazeRand ≠ none := by
  have hd : dot grazeInfo.unit_surface_normal
      ((reflected grazeRay.dir.unit_vector grazeInfo.unit_surface_normal).add
        (grazeRand.smul mirrorMetal.fuzz_factor)) = 0 := by
    rw [graze_scatter_dir]
    simp [grazeInfo, dot]
  refine ⟨hd, ?_⟩
  have := (C7_metal_scatter_amended mirrorMetal grazeRay grazeInfo
    grazeRand).2 (by rw [hd]; norm_num)
  rw [this]
  simp

/-- C4 (amended): on a hit, `Camera::ray_color` returns
`attenuation ⊙ ray_color(scattered, depth_left - 1, world)` when the
material scatters, and `RGB::zero()` — NOT `material.emit()` — when it does
not; no emitted term is ever added (the cited `src/camera.h` integrator
never calls `emit`). -/
theorem C4_ray_color_amended :
    ∀ (mats : ℕ → MaterialImpl) (world : World) (ray : Ray3D ℝ)
      (depth_left : ℕ) (info : hit_info ℝ),
      world ray = some info →
      (((mats info.material).scatter ray info = none →
          Camera.ray_color mats world ray (depth_left + 1) = RGB.zero) ∧
        (∀ s, (mats info.material).scatter ray info = some s →
          Camera.ray_color mats world ray (depth_left + 1) =
            s.attenuation.mul (Camera.ray_color mats world s.ray
              depth_left))) := by
  intro mats world ray d info hw
  constructor
  · intro hs
    simp [Camera.ray_color, hw, hs]
  · intro s hs
    simp [Camera.ray_color, hw, hs]

/-- Counterexample to C4 as stated: `lightWorld` hits a surface whose
material absorbs every ray and emits white, and the integrator returns
black, not the emitted color the claim requires. -/
theorem C4_ray_color_counterexample :
    lightWorld lightRay = some ⟨1, ⟨0, 0, 0⟩, ⟨0, 0, 1⟩, true, 0⟩ ∧
      (lightMats 0).scatter lightRay ⟨1, ⟨0, 0, 0⟩, ⟨0, 0, 1⟩, true, 0⟩ =
        none ∧
      (lightMats 0).emit = RGB.from_mag 1 1 1 ∧
      Camera.ray_color lightMats lightWorld lightRay 1 = RGB.zero ∧
      RGB.zero ≠ RGB.from_mag (1 : ℝ) 1 1 := by
  refine ⟨rfl, rfl, rfl, ?_, ?_⟩
  · simp [Camera.ray_color, lightWorld, lightMats]
  · intro h
    have : (0 : ℝ) = 1 := congrArg RGB.r h
    norm_num at this

/-- Witness for the amended C4: the absorb branch returns black and the
scatter branch returns the attenuated recursive color, at concrete
materials and rays. -/
theorem C4_ray_color_amended_witness :
    Camera.ray_color lightMats lightWorld lightRay 1 = RGB.zero ∧
      Camera.ray_color bounceMats lightWorld lightRay 1 =
        (RGB.from_mag (1/2) (1/4) (1/8)).mul
          (Camera.ray_color bounceMats lightWorld
            ⟨⟨0, 0, 0⟩, ⟨0, 0, 1⟩⟩ 0) :=
  ⟨(C4_ray_color_amended lightMats lightWorld lightRay 0 _ rfl).1 rfl,
    (C4_ray_color_amended bounceMats lightWorld lightRay 0 _ rfl).2 _ rfl⟩

/-! ### Vector algebra and the hit-record constructor -/

section VecLemmas

variable {α : Type} [LinearOrderedField α]

/-- Dot product against a negated vector. -/
theorem dot_neg_right (a b : Vec3D α) : dot a b.neg = -(dot a b) := by
  simp [dot, Vec3D.neg]; ring

/-- Squared magnitude of a negated vector. -/
theorem mag_squared_neg (v : Vec3D α) : v.neg.mag_squared = v.mag_squared := by
  simp only [Vec3D.neg, Vec3D.mag_squared]; ring

/-- Squared magnitude of a scalar multiple. -/
theorem mag_squared_smul (v : Vec3D α) (k : α) :
    (v.smul k).mag_squared = v.mag_squared * k ^ 2 := by
  simp [Vec3D.smul, Vec3D.mag_squared]; ring

/-- The stored hit-record time is the time handed to the constructor. -/
theorem hit_info_make_time (t : α) (pt out : Vec3D α) (ray : Ray3D α)
    (m : ℕ) : (hit_info.make t pt out ray m).hit_time = t := by
  unfold hit_info.make; split <;> rfl

/-- The stored hit point is the point handed to the constructor. -/
theorem hit_info_make_point (t : α) (pt out : Vec3D α) (ray : Ray3D α)
    (m : ℕ) : (hit_info.make t pt out ray m).hit_point = pt := by
  unfold hit_info.make; split <;> rfl

/-- The stored normal is the outward normal or its negation. -/
theorem hit_info_make_normal_cases (t : α) (pt out : Vec3D α)
    (ray : Ray3D α) (m : ℕ) :
    (hit_info.make t pt out ray m).unit_surface_normal = out ∨
      (hit_info.make t pt out ray m).unit_surface_normal = out.neg := by
  unfold hit_info.make; split
  · exact Or.inr rfl
  · exact Or.inl rfl

/-- The orientation guarantee of the `hit_info` constructor: the stored
normal never points with the incoming ray. -/
theorem hit_info_make_dot_nonpos (t : α) (pt out : Vec3D α) (ray : Ray3D α)
    (m : ℕ) :
    dot ray.dir (hit_info.make t pt out ray m).unit_surface_normal ≤ 0 := by
  unfold hit_info.make
  by_cases h : dot ray.dir out > 0
  · simp only [if_pos h, dot_neg_right]
    linarith
  · simp only [if_neg h]
    exact not_lt.1 h

end VecLemmas

/-- A vector has zero squared magnitude exactly when it is the zero
vector. -/
theorem mag_squared_eq_zero_iff (v : Vec3D ℝ) :
    v.mag_squared = 0 ↔ v = ⟨0, 0, 0⟩ := by
  constructor
  · intro h
    unfold Vec3D.mag_squared at h
    have hx : v.x = 0 := by nlinarith [sq_nonneg v.x, sq_nonneg v.y, sq_nonneg v.z]
    have hy : v.y = 0 := by nlinarith [sq_nonneg v.x, sq_nonneg v.y, sq_nonneg v.z]
    have hz : v.z = 0 := by nlinarith [sq_nonneg v.x, sq_nonneg v.y, sq_nonneg v.z]
    cases v; simp_all
  · intro h; subst h; simp [Vec3D.mag_squared]

/-- Squared magnitudes are nonnegative. -/
theorem mag_squared_nonneg (v : Vec3D ℝ) : 0 ≤ v.mag_squared := by
  unfold Vec3D.mag_squared
  nlinarith [sq_nonneg v.x, sq_nonneg v.y, sq_nonneg v.z]

/-- `mag` squares back to `mag_squared`. -/
theorem mag_sq_eq (v : Vec3D ℝ) : v.mag ^ 2 = v.mag_squared :=
  Real.sq_sqrt (mag_squared_nonneg v)

/-- Nonzero vectors have positive magnitude. -/
theorem mag_pos_of_ne_zero (v : Vec3D ℝ) (hv : v ≠ ⟨0, 0, 0⟩) : 0 < v.mag := by
  apply Real.sqrt_pos.2
  rcases lt_or_eq_of_le (mag_squared_nonneg v) with h | h
  · exact h
  · exact absurd ((mag_squared_eq_zero_iff v).1 h.symm) hv

/-- A vector whose squared magnitude is 1 has magnitude 1. -/
theorem mag_eq_one_of_mag_squared_eq_one (v : Vec3D ℝ)
    (h : v.mag_squared = 1) : v.mag = 1 := by
  unfold Vec3D.mag; rw [h]; exact Real.sqrt_one

/-- The unit vector of a nonzero vector has magnitude 1 (over `ℝ`). -/
theorem unit_vector_mag (v : Vec3D ℝ) (hv : v ≠ ⟨0, 0, 0⟩) :
    v.unit_vector.mag = 1 := by
  apply mag_eq_one_of_mag_squared_eq_one
  unfold Vec3D.unit_vector Vec3D.sdiv
  rw [mag_squared_smul]
  have hm := mag_pos_of_ne_zero v hv
  have : v.mag ^ 2 = v.mag_squared := mag_sq_eq v
  field_simp
  linarith [mag_sq_eq v]

/-- The zero vector is its own unit vector (IEEE gives NaN here; in the
field model `x / 0 = 0`; both ways the zero-normal parallelogram rejects
every ray through its parallel-rejection guard). -/
theorem unit_vector_zero :
    (Vec3D.mk (0 : ℝ) 0 0).unit_vector = ⟨0, 0, 0⟩ := by
  simp [Vec3D.unit_vector, Vec3D.sdiv, Vec3D.smul]

/-- Magnitude of a negated vector. -/
theorem mag_neg (v : Vec3D ℝ) : v.neg.mag = v.mag := by
  unfold Vec3D.mag; rw [mag_squared_neg]

/-- The dot product of a vector with itself is its squared magnitude. -/
theorem dot_self {α : Type} [LinearOrderedField α] (v : Vec3D α) :
    dot v v = v.mag_squared := rfl

/-- Evaluation of the quadratic at either quadratic-formula root. -/
theorem quad_root_eval (a b c t : ℝ) (ha : a ≠ 0) (hD : 0 ≤ b * b - a * c)
    (ht : t = (-b - Real.sqrt (b * b - a * c)) / a ∨
      t = (-b + Real.sqrt (b * b - a * c)) / a) :
    a * t ^ 2 + 2 * b * t + c = 0 := by
  have hs : Real.sqrt (b * b - a * c) ^ 2 = b * b - a * c := Real.sq_sqrt hD
  rcases ht with h | h <;> subst h <;> field_simp <;> nlinarith [hs]

/-- Expansion of the squared distance from the sphere center to the ray
point at time `t` as the sphere quadratic. -/
theorem sphere_quadratic_expand (s : Sphere) (ray : Ray3D ℝ) (t : ℝ) :
    ((ray.at t).sub s.center).mag_squared =
      dot ray.dir ray.dir * t ^ 2 +
        2 * dot ray.dir (ray.origin.sub s.center) * t +
        dot (ray.origin.sub s.center) (ray.origin.sub s.center) := by
  simp only [Ray3D.at, Vec3D.add, Vec3D.smul, Vec3D.sub, Vec3D.mag_squared,
    dot]
  ring

/-- Inversion of `Sphere::hit_by`: every returned record comes from one of
the two quadratic-formula roots, lies strictly inside the query interval,
and is built by the `hit_info` constructor from the scaled outward
normal. -/
theorem sphere_hit_inversion (s : Sphere) (ray : Ray3D ℝ) (rt : Interval ℝ)
    (h : hit_info ℝ) (hhit : s.hit_by ray rt = some h) :
    0 ≤ dot ray.dir (ray.origin.sub s.center) *
        dot ray.dir (ray.origin.sub s.center) -
        dot ray.dir ray.dir *
          (dot (ray.origin.sub s.center) (ray.origin.sub s.center) -
            s.radius * s.radius) ∧
      ∃ t, (t = (-(dot ray.dir (ray.origin.sub s.center)) -
            Real.sqrt (dot ray.dir (ray.origin.sub s.center) *
              dot ray.dir (ray.origin.sub s.center) -
              dot ray.dir ray.dir *
                (dot (ray.origin.sub s.center)
                  (ray.origin.sub s.center) - s.radius * s.radius))) /
            dot ray.dir ray.dir ∨
          t = (-(dot ray.dir (ray.origin.sub s.center)) +
            Real.sqrt (dot ray.dir (ray.origin.sub s.center) *
              dot ray.dir (ray.origin.sub s.center) -
              dot ray.dir ray.dir *
                (dot (ray.origin.sub s.center)
                  (ray.origin.sub s.center) - s.radius * s.radius))) /
            dot ray.dir ray.dir) ∧
        rt.contains_exclusive t ∧
        h = hit_info.make t (ray.at t)
          (((ray.at t).sub s.center).sdiv s.radius) ray s.material := by
  rw [Sphere.hit_by] at hhit
  simp only [] at hhit
  split_ifs at hhit with hD h1 h2
  all_goals first
    | exact ⟨not_lt.1 hD, _, Or.inl rfl, h1, (Option.some.inj hhit).symm⟩
    | exact ⟨not_lt.1 hD, _, Or.inr rfl, h2, (Option.some.inj hhit).symm⟩

/-- Inversion of `Parallelogram::hit_by`: every returned record passes the
parallel-rejection guard, lies strictly inside the query interval, and is
built by the `hit_info` constructor from the stored unit plane normal. -/
theorem parallelogram_hit_inversion {α : Type} [LinearOrderedField α]
    (p : Parallelogram α) (ray : Ray3D α) (rt : Interval α) (h : hit_info α)
    (hhit : p.hit_by ray rt = some h) :
    ¬ |dot p.unit_plane_normal ray.dir| < (1 / 1000000000 : α) ∧
      ∃ t, rt.contains_exclusive t ∧
        h = hit_info.make t (ray.at t) p.unit_plane_normal ray p.material := by
  rw [Parallelogram.hit_by] at hhit
  simp only [] at hhit
  split_ifs at hhit with hg ht hab
  all_goals first
    | exact ⟨hg, _, not_not.1 ht, (Option.some.inj hhit).symm⟩
    | exact ⟨hg, _, ht, hhit.symm⟩
    | exact ⟨hg, _, ht, (Option.some.inj hhit).symm⟩

/-! ### The shared hit fold -/

section FoldLemmas

variable (ray : Ray3D ℚ) (lo : ℚ)

/-- A primitive's `hit_by` succeeds exactly on its canonical hit when that
hit's time is strictly below the interval's upper bound. -/
theorem Prim.hit_eq_some_iff (p : Prim) (m : ℚ) (h : hit_info ℚ) :
    p.hit ray ⟨lo, m⟩ = some h ↔
      p.chit ray lo = some h ∧ h.hit_time < m := by
  unfold Prim.hit
  rcases hc : p.chit ray lo with _ | h'
  · simp
  · by_cases hlt : h'.hit_time < m
    · simp only [if_pos hlt, Option.some.injEq]
      constructor
      · rintro rfl; exact ⟨rfl, hlt⟩
      · rintro ⟨hx, _⟩; exact hx
    · simp only [if_neg hlt]
      constructor
      · intro hx; exact Option.noConfusion hx
      · rintro ⟨hx, hm⟩
        cases Option.some.inj hx
        exact absurd hm hlt

/-- Unfolding the hit fold over an empty list. -/
theorem foldHits_nil (st : ℚ × Option (hit_info ℚ)) :
    foldHits ray lo [] st = st := rfl

/-- Unfolding the hit fold over a cons. -/
theorem foldHits_cons (p : Prim) (rest : List Prim)
    (st : ℚ × Option (hit_info ℚ)) :
    foldHits ray lo (p :: rest) st =
      foldHits ray lo rest
        (match p.hit ray ⟨lo, st.1⟩ with
          | some curr => (curr.hit_time, some curr)
          | none => st) := rfl

/-- The cons step of the hit fold when the head misses. -/
theorem foldHits_cons_none (p : Prim) (rest : List Prim)
    (st : ℚ × Option (hit_info ℚ)) (hph : p.hit ray ⟨lo, st.1⟩ = none) :
    foldHits ray lo (p :: rest) st = foldHits ray lo rest st := by
  rw [foldHits_cons, hph]

/-- The cons step of the hit fold when the head hits. -/
theorem foldHits_cons_some (p : Prim) (rest : List Prim)
    (st : ℚ × Option (hit_info ℚ)) (curr : hit_info ℚ)
    (hph : p.hit ray ⟨lo, st.1⟩ = some curr) :
    foldHits ray lo (p :: rest) st =
      foldHits ray lo rest (curr.hit_time, some curr) := by
  rw [foldHits_cons, hph]

/-- The hit fold over a concatenation is the composition of the folds. -/
theorem foldHits_append (l₁ l₂ : List Prim) (st : ℚ × Option (hit_info ℚ)) :
    foldHits ray lo (l₁ ++ l₂) st = foldHits ray lo l₂ (foldHits ray lo l₁ st) := by
  unfold foldHits
  exact List.foldl_append _ _ _ _

/-- The running minimum hit time never increases along the fold. -/
theorem foldHits_fst_le (l : List Prim) (st : ℚ × Option (hit_info ℚ)) :
    (foldHits ray lo l st).1 ≤ st.1 := by
  induction l generalizing st with
  | nil => simp [foldHits_nil]
  | cons p rest ih =>
    rcases hph : p.hit ray ⟨lo, st.1⟩ with _ | curr
    · rw [foldHits_cons_none ray lo p rest st hph]
      exact ih st
    · rw [foldHits_cons_some ray lo p rest st curr hph]
      have hlt := ((Prim.hit_eq_some_iff ray lo p st.1 curr).1 hph).2
      calc (foldHits ray lo rest (curr.hit_time, some curr)).1
          ≤ curr.hit_time := ih _
        _ ≤ st.1 := hlt.le

/-- If the running minimum is unchanged by the fold, so is the result. -/
theorem foldHits_fst_eq (l : List Prim) (st : ℚ × Option (hit_info ℚ))
    (heq : (foldHits ray lo l st).1 = st.1) :
    (foldHits ray lo l st).2 = st.2 := by
  induction l generalizing st with
  | nil => rfl
  | cons p rest ih =>
    rcases hph : p.hit ray ⟨lo, st.1⟩ with _ | curr
    · rw [foldHits_cons_none ray lo p rest st hph] at heq ⊢
      exact ih st heq
    · rw [foldHits_cons_some ray lo p rest st curr hph] at heq ⊢
      have hlt := ((Prim.hit_eq_some_iff ray lo p st.1 curr).1 hph).2
      have hle := foldHits_fst_le ray lo rest (curr.hit_time, some curr)
      exact absurd heq (ne_of_lt (lt_of_le_of_lt hle hlt))

/-- If the fold strictly lowered the running minimum, the final result is
the canonical hit of some list member attaining the final minimum. -/
theorem foldHits_achiever (l : List Prim) (st : ℚ × Option (hit_info ℚ))
    (hlt : (foldHits ray lo l st).1 < st.1) :
    ∃ p ∈ l, ∃ h, p.chit ray lo = some h ∧
      h.hit_time = (foldHits ray lo l st).1 ∧
      (foldHits ray lo l st).2 = some h := by
  induction l generalizing st with
  | nil => exact absurd hlt (by simp [foldHits_nil])
  | cons p rest ih =>
    rcases hph : p.hit ray ⟨lo, st.1⟩ with _ | curr
    · rw [foldHits_cons_none ray lo p rest st hph] at hlt ⊢
      obtain ⟨q, hq, h, hh⟩ := ih st hlt
      exact ⟨q, List.mem_cons_of_mem p hq, h, hh⟩
    · rw [foldHits_cons_some ray lo p rest st curr hph] at hlt ⊢
      obtain ⟨hchit, hcurlt⟩ := (Prim.hit_eq_some_iff ray lo p st.1 curr).1 hph
      rcases eq_or_lt_of_le
          (foldHits_fst_le ray lo rest (curr.hit_time, some curr)) with heq | hlt2
      · refine ⟨p, List.mem_cons_self p rest, curr, hchit, heq.symm, ?_⟩
        have := foldHits_fst_eq ray lo rest (curr.hit_time, some curr) heq
        simpa using this
      · obtain ⟨q, hq, h, hh⟩ := ih (curr.hit_time, some curr) hlt2
        exact ⟨q, List.mem_cons_of_mem p hq, h, hh⟩

/-- The final running minimum is the `min`-fold of the canonical hit times
over the list. -/
theorem foldHits_fst_formula (l : List Prim) (st : ℚ × Option (hit_info ℚ)) :
    (foldHits ray lo l st).1 =
      l.foldl (fun m p =>
        match p.chit ray lo with
        | some h => Min.min m h.hit_time
        | none => m) st.1 := by
  induction l generalizing st with
  | nil => rfl
  | cons p rest ih =>
    rw [foldHits_cons, List.foldl_cons]
    rcases hc : p.chit ray lo with _ | h'
    · have hnone : p.hit ray ⟨lo, st.1⟩ = none := by
        unfold Prim.hit; rw [hc]
      rw [hnone]
      exact ih st
    · by_cases hlt : h'.hit_time < st.1
      · have hsome : p.hit ray ⟨lo, st.1⟩ = some h' := by
          unfold Prim.hit; rw [hc]; simp [hlt]
        rw [hsome]
        simp only [min_eq_right hlt.le]
        exact ih (h'.hit_time, some h')
      · have hnone : p.hit ray ⟨lo, st.1⟩ = none := by
          unfold Prim.hit; rw [hc]; simp [hlt]
        rw [hnone]
        simp only [min_eq_left (not_lt.1 hlt)]
        exact ih st

/-- The `min`-fold of canonical hit times is invariant under permutation of
the primitive list. -/
theorem minfold_perm {l₁ l₂ : List Prim} (hp : l₁.Perm l₂) :
    ∀ m : ℚ, l₁.foldl (fun m p =>
        match p.chit ray lo with
        | some h => Min.min m h.hit_time
        | none => m) m =
      l₂.foldl (fun m p =>
        match p.chit ray lo with
        | some h => Min.min m h.hit_time
        | none => m) m := by
  induction hp with
  | nil => intro m; rfl
  | cons x _ ih => intro m; simp only [List.foldl_cons]; exact ih _
  | swap x y l =>
    intro m
    simp only [List.foldl_cons]
    rcases hx : x.chit ray lo with _ | hx' <;>
      rcases hy : y.chit ray lo with _ | hy' <;>
        simp [min_right_comm]
  | trans _ _ ih₁ ih₂ => intro m; rw [ih₁ m, ih₂ m]

/-- If no list member has a canonical hit below the running minimum, the
fold is the identity. -/
theorem foldHits_no_hit (l : List Prim) (st : ℚ × Option (hit_info ℚ))
    (hno : ∀ p ∈ l, ∀ h, p.chit ray lo = some h → ¬ h.hit_time < st.1) :
    foldHits ray lo l st = st := by
  induction l generalizing st with
  | nil => rfl
  | cons p rest ih =>
    rcases hph : p.hit ray ⟨lo, st.1⟩ with _ | curr
    · rw [foldHits_cons_none ray lo p rest st hph]
      exact ih st fun q hq => hno q (List.mem_cons_of_mem p hq)
    · obtain ⟨hchit, hcurlt⟩ := (Prim.hit_eq_some_iff ray lo p st.1 curr).1 hph
      exact absurd hcurlt (hno p (List.mem_cons_self p rest) curr hchit)

/-- Every hit produced by the fold is the canonical hit of some member,
below the initial running minimum (or was already the input result). -/
theorem foldHits_provenance (l : List Prim) (st : ℚ × Option (hit_info ℚ))
    (h : hit_info ℚ) (hres : (foldHits ray lo l st).2 = some h) :
    st.2 = some h ∨
      ∃ p ∈ l, p.chit ray lo = some h ∧ h.hit_time < st.1 := by
  induction l generalizing st with
  | nil => exact Or.inl hres
  | cons p rest ih =>
    rcases hph : p.hit ray ⟨lo, st.1⟩ with _ | curr
    · rw [foldHits_cons_none ray lo p rest st hph] at hres
      rcases ih st hres with h1 | ⟨q, hq, hh⟩
      · exact Or.inl h1
      · exact Or.inr ⟨q, List.mem_cons_of_mem p hq, hh⟩
    · rw [foldHits_cons_some ray lo p rest st curr hph] at hres
      obtain ⟨hchit, hcurlt⟩ := (Prim.hit_eq_some_iff ray lo p st.1 curr).1 hph
      rcases ih (curr.hit_time, some curr) hres with h1 | ⟨q, hq, hh⟩
      · cases Option.some.inj h1
        exact Or.inr ⟨p, List.mem_cons_self p rest, hchit, hcurlt⟩
      · exact Or.inr ⟨q, List.mem_cons_of_mem p hq, hh.1,
          lt_trans hh.2 hcurlt⟩

end FoldLemmas

/-- The default primitive (used for the out-of-bounds `getD` accesses that
well-formed arrays never perform) has no hits. -/
theorem default_prim_chit (ray : Ray3D ℚ) (lo : ℚ) :
    (default : Prim).chit ray lo = none := rfl

/-- An indexed `getD` access yields a list member or the default. -/
theorem getD_mem_or_default (l : List Prim) (n : ℕ) :
    l.getD n default ∈ l ∨ l.getD n default = default := by
  rw [List.getD_eq_getElem?_getD]
  rcases h : l[n]? with _ | x
  · exact Or.inr rfl
  · obtain ⟨hn, hx⟩ := List.getElem?_eq_some.1 h
    exact Or.inl (hx ▸ List.getElem_mem hn)

section TravInv

variable (ray : Ray3D ℚ) (lo : ℚ) (M : ℚ) (Q : hit_info ℚ → Prop)

/-- The leaf loop preserves the hit-record invariant: if every primitive of
the array satisfies `Q` with times past `lo`, and the incoming state does,
so does the outgoing state, with the running maximum still at most `M`. -/
theorem leafFold_inv (prims : List Prim)
    (hs : ∀ p ∈ prims, ∀ h, p.chit ray lo = some h → Q h ∧ lo < h.hit_time)
    (first num : ℕ) (st : ℚ × Option (hit_info ℚ)) (h1 : st.1 ≤ M)
    (h2 : ∀ h, st.2 = some h → Q h ∧ lo < h.hit_time ∧ h.hit_time < M) :
    (leafFold prims ray lo first num st).1 ≤ M ∧
      ∀ h, (leafFold prims ray lo first num st).2 = some h →
        Q h ∧ lo < h.hit_time ∧ h.hit_time < M := by
  unfold leafFold
  generalize List.range num = js
  induction js generalizing st with
  | nil => exact ⟨h1, h2⟩
  | cons j js ih =>
    rw [List.foldl_cons]
    rcases hph : (prims.getD (first + j) default).hit ray ⟨lo, st.1⟩
        with _ | curr
    · exact ih st h1 h2
    · obtain ⟨hchit, hlt⟩ :=
        (Prim.hit_eq_some_iff ray lo _ st.1 curr).1 hph
      have hQ : Q curr ∧ lo < curr.hit_time := by
        rcases getD_mem_or_default prims (first + j) with hm | hd
        · exact hs _ hm curr hchit
        · rw [hd, default_prim_chit] at hchit
          exact Option.noConfusion hchit
      refine ih (curr.hit_time, some curr) (le_of_lt (lt_of_lt_of_le hlt h1))
        ?_
      intro h heq
      cases Option.some.inj heq
      exact ⟨hQ.1, hQ.2, lt_of_lt_of_le hlt h1⟩

/-- One traversal step preserves the hit-record invariant; a returned result
satisfies it. -/
theorem BVH.step_inv (b : BVH) (inv : Vec3D ℚ) (dneg : Vec3D Bool)
    (hs : ∀ p ∈ b.primitives, ∀ h, p.chit ray lo = some h →
      Q h ∧ lo < h.hit_time)
    (st : TravState) (h1 : st.ray_times_max ≤ M)
    (h2 : ∀ h, st.result = some h → Q h ∧ lo < h.hit_time ∧ h.hit_time < M) :
    (∀ st', b.step ray lo inv dneg st = .inl st' →
      st'.ray_times_max ≤ M ∧
        ∀ h, st'.result = some h → Q h ∧ lo < h.hit_time ∧ h.hit_time < M) ∧
    (∀ r, b.step ray lo inv dneg st = .inr r →
      ∀ h, r = some h → Q h ∧ lo < h.hit_time ∧ h.hit_time < M) := by
  obtain ⟨hl1, hl2⟩ := leafFold_inv ray lo M Q b.primitives hs
    (b.linear_bvh_nodes.getD st.curr_node_index default).index_slot
    (b.linear_bvh_nodes.getD st.curr_node_index default).num_primitives
    (st.ray_times_max, st.result) h1 h2
  refine ⟨?_, ?_⟩ <;> intro x hx <;>
    simp only [BVH.step] at hx <;>
    rcases hstk : st.dfs_callstack with _ | ⟨c, rest⟩ <;>
    rw [hstk] at hx <;>
    split_ifs at hx <;>
    first
      | (cases Sum.inl.inj hx; exact ⟨h1, h2⟩)
      | (cases Sum.inl.inj hx; exact ⟨hl1, hl2⟩)
      | (cases Sum.inr.inj hx; exact hl2)
      | (cases Sum.inr.inj hx; exact h2)

/-- The iterative traversal preserves the hit-record invariant: any result
it returns satisfies `Q`, is strictly past the queried lower bound, and is
strictly below the initial maximum. -/
theorem BVH.iterate_inv (b : BVH) (inv : Vec3D ℚ) (dneg : Vec3D Bool)
    (hs : ∀ p ∈ b.primitives, ∀ h, p.chit ray lo = some h →
      Q h ∧ lo < h.hit_time) :
    ∀ (k : ℕ) (st : TravState), st.ray_times_max ≤ M →
      (∀ h, st.result = some h → Q h ∧ lo < h.hit_time ∧ h.hit_time < M) →
      ∀ r, b.iterate ray lo inv dneg k st = .inr r →
        ∀ h, r = some h → Q h ∧ lo < h.hit_time ∧ h.hit_time < M := by
  intro k
  induction k with
  | zero => intro st _ _ r hr; exact Sum.noConfusion hr
  | succ k ih =>
    intro st h1 h2 r hr
    obtain ⟨hstep1, hstep2⟩ := BVH.step_inv ray lo M Q b inv dneg hs st h1 h2
    unfold BVH.iterate at hr
    rcases hst : b.step ray lo inv dneg st with st' | r'
    · rw [hst] at hr
      obtain ⟨g1, g2⟩ := hstep1 st' hst
      exact ih st' g1 g2 r hr
    · rw [hst] at hr
      cases Sum.inr.inj hr
      exact hstep2 _ hst

end TravInv

/-! ### Hit-record invariants -/

/-- Inversion of the canonical parallelogram hit: every canonical hit passes
the parallel-rejection guard, lies strictly past the queried lower bound,
and is built by the `hit_info` constructor from the stored unit plane
normal. -/
theorem Parallelogram.chit_some {α : Type} [LinearOrderedField α]
    (p : Parallelogram α) (ray : Ray3D α) (lo : α) (h : hit_info α)
    (hc : p.chit ray lo = some h) :
    ¬ |dot p.unit_plane_normal ray.dir| < (1 / 1000000000 : α) ∧
      ∃ t, lo < t ∧
        h = hit_info.make t (ray.at t) p.unit_plane_normal ray p.material := by
  rw [Parallelogram.chit] at hc
  simp only [] at hc
  split_ifs at hc with hg ht hab
  all_goals first
    | exact ⟨hg, _, not_not.1 ht, (Option.some.inj hc).symm⟩
    | exact ⟨hg, _, ht, (Option.some.inj hc).symm⟩

/-- A parallelogram whose stored plane normal has unit squared magnitude
produces only canonical hit records with the three invariants: the normal
points against the ray, keeps unit squared magnitude, and the time lies
strictly past the queried lower bound. -/
theorem Parallelogram.chit_record_inv {α : Type} [LinearOrderedField α]
    (p : Parallelogram α) (hn : p.unit_plane_normal.mag_squared = 1)
    (ray : Ray3D α) (lo : α) (h : hit_info α) (hc : p.chit ray lo = some h) :
    dot ray.dir h.unit_surface_normal ≤ 0 ∧
      h.unit_surface_normal.mag_squared = 1 ∧ lo < h.hit_time := by
  obtain ⟨hg, t, hlt, heq⟩ := Parallelogram.chit_some p ray lo h hc
  subst heq
  refine ⟨hit_info_make_dot_nonpos _ _ _ _ _, ?_, ?_⟩
  · rcases hit_info_make_normal_cases t (ray.at t) p.unit_plane_normal ray
        p.material with he | he
    · rw [he]; exact hn
    · rw [he, mag_squared_neg]; exact hn
  · rw [hit_info_make_time]; exact hlt

/-- Evaluation: the probe sphere intersects the downward probe ray at
`t = 1` with outward normal `(0,0,1)`. -/
theorem probeSphere_hit :
    probeSphere.hit_by probeRay probeTimes = some probeHit := by
  unfold Sphere.hit_by probeSphere probeRay probeTimes probeHit
  norm_num [dot, Vec3D.sub, Ray3D.at, Vec3D.add, Vec3D.smul, Vec3D.sdiv,
    hit_info.make, Interval.contains_exclusive, Real.sqrt_one]

/-- Evaluation: the constructed unit square in the plane `z = -1` intersects
the downward probe ray at `t = 1` with outward normal `(0,0,1)`. -/
theorem probePara_hit :
    probePara.hit_by probeRay probeTimes = some probeParaHit := by
  unfold probePara Parallelogram.construct Parallelogram.hit_by probeRay
    probeTimes probeParaHit
  norm_num [cross, dot, Vec3D.sub, Ray3D.at, Vec3D.add, Vec3D.smul,
    Vec3D.sdiv, Vec3D.unit_vector, Vec3D.mag, Vec3D.mag_squared,
    hit_info.make, Interval.contains_exclusive, Interval.contains_inclusive,
    Real.sqrt_one]

/-- Evaluation: on the tie world the brute-force scene returns `paraXY`'s
record (material handle 1). -/
theorem tieScene_eq :
    Scene.hit_by tieWorld tieRay tieTimes = some tieHitXY := by
  with_unfolding_all rfl

/-- Evaluation: on the tie world the flattened BVH returns `paraYZ`'s record
(material handle 2). -/
theorem tieBVH_hit :
    tieBVH.hit_by tieRay tieTimes = some tieHitYZ := by
  with_unfolding_all rfl

/-- The primitive array of the tie BVH is the tie world itself (the SAH
split puts `paraXY` left and `paraYZ` right, and the stable partition keeps
the original order). -/
theorem tieBVH_prims : tieBVH.primitives = tieWorld := by
  with_unfolding_all rfl

/-- Both tie-world parallelograms produce only hit records satisfying the
three record invariants for the tie ray. -/
theorem tieWorld_inv : ∀ p ∈ tieWorld, ∀ lo h', p.chit tieRay lo = some h' →
    dot tieRay.dir h'.unit_surface_normal ≤ 0 ∧
      h'.unit_surface_normal.mag_squared = 1 ∧ lo < h'.hit_time := by
  intro p hp lo h' hc
  simp only [tieWorld, List.mem_cons, List.not_mem_nil, or_false] at hp
  rcases hp with rfl | rfl
  · exact Parallelogram.chit_record_inv paraXY
      (by norm_num [paraXY, Vec3D.mag_squared]) tieRay lo h' hc
  · exact Parallelogram.chit_record_inv paraYZ
      (by norm_num [paraYZ, Vec3D.mag_squared]) tieRay lo h' hc

/-- The same record invariants for the primitives of the tie BVH. -/
theorem tieBVH_inv : ∀ p ∈ tieBVH.primitives, ∀ lo h',
    p.chit tieRay lo = some h' →
    dot tieRay.dir h'.unit_surface_normal ≤ 0 ∧
      h'.unit_surface_normal.mag_squared = 1 ∧ lo < h'.hit_time := by
  rw [tieBVH_prims]
  exact tieWorld_inv

/-- C5: every hit record returned by a primitive's `hit_by` satisfies the
three invariants: the stored unit normal points against the incoming ray
(`dot(ray.dir, unit_surface_normal) ≤ 0`), it has magnitude 1 (exactly, in
the exact-arithmetic model, which is within the claimed `1e-9`), and the hit
time lies strictly inside the query interval. Four parts:
(1) `Sphere::hit_by` over `ℝ`, assuming a nonzero ray direction and a
nonzero radius (with a zero direction or radius the IEEE code divides by
zero and never returns a hit);
(2) `Parallelogram::hit_by` over `ℝ` for any parallelogram built by the
translated constructor, with no side conditions (a degenerate zero normal is
rejected by the `1e-9` parallel guard);
(3) `Scene::hit_by` and (4) `BVH::hit_by` over `ℚ`, which propagate the
record invariants (squared magnitude, as no square root exists over `ℚ`)
from whatever primitives they aggregate. -/
theorem C5_hit_record_invariants :
    (∀ (s : Sphere) (ray : Ray3D ℝ) (rt : Interval ℝ) (h : hit_info ℝ),
      ray.dir ≠ ⟨0, 0, 0⟩ → s.radius ≠ 0 → s.hit_by ray rt = some h →
        dot ray.dir h.unit_surface_normal ≤ 0 ∧
          h.unit_surface_normal.mag = 1 ∧
          rt.min < h.hit_time ∧ h.hit_time < rt.max) ∧
    (∀ (vertex side1 side2 : Vec3D ℝ) (m : ℕ) (ray : Ray3D ℝ)
        (rt : Interval ℝ) (h : hit_info ℝ),
      (Parallelogram.construct vertex side1 side2 m).hit_by ray rt = some h →
        dot ray.dir h.unit_surface_normal ≤ 0 ∧
          h.unit_surface_normal.mag = 1 ∧
          rt.min < h.hit_time ∧ h.hit_time < rt.max) ∧
    (∀ (objects : List Prim) (ray : Ray3D ℚ) (rt : Interval ℚ)
        (h : hit_info ℚ),
      (∀ p ∈ objects, ∀ lo h', p.chit ray lo = some h' →
        dot ray.dir h'.unit_surface_normal ≤ 0 ∧
          h'.unit_surface_normal.mag_squared = 1 ∧ lo < h'.hit_time) →
      Scene.hit_by objects ray rt = some h →
        dot ray.dir h.unit_surface_normal ≤ 0 ∧
          h.unit_surface_normal.mag_squared = 1 ∧
          rt.min < h.hit_time ∧ h.hit_time < rt.max) ∧
    (∀ (b : BVH) (ray : Ray3D ℚ) (rt : Interval ℚ) (h : hit_info ℚ),
      (∀ p ∈ b.primitives, ∀ lo h', p.chit ray lo = some h' →
        dot ray.dir h'.unit_surface_normal ≤ 0 ∧
          h'.unit_surface_normal.mag_squared = 1 ∧ lo < h'.hit_time) →
      b.hit_by ray rt = some h →
        dot ray.dir h.unit_surface_normal ≤ 0 ∧
          h.unit_surface_normal.mag_squared = 1 ∧
          rt.min < h.hit_time ∧ h.hit_time < rt.max) := by
  refine ⟨?_, ?_, ?_, ?_⟩
  · intro s ray rt h hdir hrad hhit
    obtain ⟨hD, t, hroot, hcont, heq⟩ := sphere_hit_inversion s ray rt h hhit
    have ha : dot ray.dir ray.dir ≠ 0 := by
      rw [dot_self]
      intro h0
      exact hdir ((mag_squared_eq_zero_iff ray.dir).1 h0)
    have hquad := quad_root_eval _ _ _ t ha hD hroot
    have hmagsq : ((ray.at t).sub s.center).mag_squared =
        s.radius * s.radius := by
      rw [sphere_quadratic_expand]
      linarith [hquad]
    have hnormsq : (((ray.at t).sub s.center).sdiv s.radius).mag_squared
        = 1 := by
      unfold Vec3D.sdiv
      rw [mag_squared_smul, hmagsq]
      field_simp
      ring
    subst heq
    refine ⟨hit_info_make_dot_nonpos _ _ _ _ _, ?_, ?_, ?_⟩
    · rcases hit_info_make_normal_cases t (ray.at t)
          (((ray.at t).sub s.center).sdiv s.radius) ray s.material with he | he
      · rw [he]; exact mag_eq_one_of_mag_squared_eq_one _ hnormsq
      · rw [he, mag_neg]; exact mag_eq_one_of_mag_squared_eq_one _ hnormsq
    · rw [hit_info_make_time]; exact hcont.1
    · rw [hit_info_make_time]; exact hcont.2
  · intro vertex side1 side2 m ray rt h hhit
    obtain ⟨hg, t, hcont, heq⟩ :=
      parallelogram_hit_inversion _ ray rt h hhit
    have hunit : (Parallelogram.construct vertex side1 side2 m).unit_plane_normal
        = (cross side1 side2).unit_vector := rfl
    have hnz : cross side1 side2 ≠ ⟨0, 0, 0⟩ := by
      intro h0
      apply hg
      rw [hunit, h0, unit_vector_zero]
      have hz : dot (Vec3D.mk (0 : ℝ) 0 0) ray.dir = 0 := by simp [dot]
      rw [hz]
      norm_num
    have hmag :
        (Parallelogram.construct vertex side1 side2 m).unit_plane_normal.mag
          = 1 := by
      rw [hunit]; exact unit_vector_mag _ hnz
    subst heq
    refine ⟨hit_info_make_dot_nonpos _ _ _ _ _, ?_, ?_, ?_⟩
    · rcases hit_info_make_normal_cases t (ray.at t)
          (Parallelogram.construct vertex side1 side2 m).unit_plane_normal ray
          (Parallelogram.construct vertex side1 side2 m).material with he | he
      · rw [he]; exact hmag
      · rw [he, mag_neg]; exact hmag
    · rw [hit_info_make_time]; exact hcont.1
    · rw [hit_info_make_time]; exact hcont.2
  · intro objects ray rt h hq hhit
    unfold Scene.hit_by at hhit
    rcases foldHits_provenance ray rt.min objects (rt.max, none) h hhit with
      h0 | ⟨p, hp, hc, hlt⟩
    · exact Option.noConfusion h0
    · obtain ⟨h1, h2, h3⟩ := hq p hp rt.min h hc
      exact ⟨h1, h2, h3, hlt⟩
  · intro b ray rt h hq hhit
    unfold BVH.hit_by at hhit
    rcases hiter : b.iterate ray rt.min (invRayDir ray) (dirIsNegative ray)
        (b.linear_bvh_nodes.length + 1) ⟨0, [], rt.max, none⟩ with st | r
    · rw [hiter] at hhit
      exact Option.noConfusion hhit
    · rw [hiter] at hhit
      obtain ⟨⟨h1, h2⟩, h3, h4⟩ := BVH.iterate_inv ray rt.min rt.max
        (fun h' => dot ray.dir h'.unit_surface_normal ≤ 0 ∧
          h'.unit_surface_normal.mag_squared = 1) b (invRayDir ray)
        (dirIsNegative ray)
        (fun p hp h' hc => ⟨⟨(hq p hp rt.min h' hc).1,
          (hq p hp rt.min h' hc).2.1⟩, (hq p hp rt.min h' hc).2.2⟩)
        (b.linear_bvh_nodes.length + 1) ⟨0, [], rt.max, none⟩ le_rfl
        (fun h' hh => Option.noConfusion hh) r hiter h hhit
      exact ⟨h1, h2, h3, h4⟩

/-- Witness for C5: the four parts applied at concrete inputs — the probe
sphere and the constructed probe parallelogram against the downward probe
ray over `ℝ`, and the scene and BVH over the two-parallelogram tie world
over `ℚ` — with every hypothesis discharged. -/
theorem C5_hit_record_invariants_witness :
    (dot probeRay.dir probeHit.unit_surface_normal ≤ 0 ∧
      probeHit.unit_surface_normal.mag = 1 ∧
      probeTimes.min < probeHit.hit_time ∧
      probeHit.hit_time < probeTimes.max) ∧
    (dot probeRay.dir probeParaHit.unit_surface_normal ≤ 0 ∧
      probeParaHit.unit_surface_normal.mag = 1 ∧
      probeTimes.min < probeParaHit.hit_time ∧
      probeParaHit.hit_time < probeTimes.max) ∧
    (dot tieRay.dir tieHitXY.unit_surface_normal ≤ 0 ∧
      tieHitXY.unit_surface_normal.mag_squared = 1 ∧
      tieTimes.min < tieHitXY.hit_time ∧
      tieHitXY.hit_time < tieTimes.max) ∧
    (dot tieRay.dir tieHitYZ.unit_surface_normal ≤ 0 ∧
      tieHitYZ.unit_surface_normal.mag_squared = 1 ∧
      tieTimes.min < tieHitYZ.hit_time ∧
      tieHitYZ.hit_time < tieTimes.max) := by
  refine ⟨?_, ?_, ?_, ?_⟩
  · exact C5_hit_record_invariants.1 probeSphere probeRay probeTimes probeHit
      (by intro h0; simpa [probeRay] using congrArg Vec3D.z h0)
      (by norm_num [probeSphere]) probeSphere_hit
  · exact C5_hit_record_invariants.2.1 ⟨-1/2, -1/2, -1⟩ ⟨1, 0, 0⟩ ⟨0, 1, 0⟩ 3
      probeRay probeTimes probeParaHit probePara_hit
  · exact C5_hit_record_invariants.2.2.1 tieWorld tieRay tieTimes tieHitXY
      tieWorld_inv tieScene_eq
  · exact C5_hit_record_invariants.2.2.2 tieBVH tieRay tieTimes tieHitYZ
      tieBVH_inv tieBVH_hit

/-! ### AABB containment and the bounds accumulators -/

section AABBLe

variable {α : Type} [LinearOrderedField α]

/-- Containment of AABBs is reflexive. -/
theorem AABB.le_refl (a : AABB α) : AABB.le a a :=
  ⟨⟨le_rfl, le_rfl⟩, ⟨le_rfl, le_rfl⟩, ⟨le_rfl, le_rfl⟩⟩

/-- Containment of AABBs is transitive. -/
theorem AABB.le_trans {a b c : AABB α} (h1 : AABB.le a b) (h2 : AABB.le b c) :
    AABB.le a c :=
  ⟨⟨h2.1.1.trans h1.1.1, h1.1.2.trans h2.1.2⟩,
   ⟨h2.2.1.1.trans h1.2.1.1, h1.2.1.2.trans h2.2.1.2⟩,
   ⟨h2.2.2.1.trans h1.2.2.1, h1.2.2.2.trans h2.2.2.2⟩⟩

/-- The first argument of `AABB::merge` is contained in the merge. -/
theorem AABB.merge_le_left (a b : AABB α) : AABB.le a (a.merge b) :=
  ⟨⟨min_le_left _ _, le_max_left _ _⟩, ⟨min_le_left _ _, le_max_left _ _⟩,
   ⟨min_le_left _ _, le_max_left _ _⟩⟩

/-- The second argument of `AABB::merge` is contained in the merge. -/
theorem AABB.merge_le_right (a b : AABB α) : AABB.le b (a.merge b) :=
  ⟨⟨min_le_right _ _, le_max_right _ _⟩, ⟨min_le_right _ _, le_max_right _ _⟩,
   ⟨min_le_right _ _, le_max_right _ _⟩⟩

/-- Containment of AABBs preserves point membership. -/
theorem AABB.containsPoint_mono {a b : AABB α} (h : AABB.le a b)
    (p : Vec3D α) (hp : a.containsPoint p) : b.containsPoint p :=
  ⟨⟨h.1.1.trans hp.1.1, hp.1.2.trans h.1.2⟩,
   ⟨h.2.1.1.trans hp.2.1.1, hp.2.1.2.trans h.2.1.2⟩,
   ⟨h.2.2.1.trans hp.2.2.1, hp.2.2.2.trans h.2.2.2⟩⟩

end AABBLe

/-- The bounds-accumulation fold keeps every already-merged box and every
newly merged primitive box inside its result. -/
theorem boundsOf_fold_le (prims : List Prim) :
    ∀ (acc : Option (AABB ℚ)) (bb : AABB ℚ),
      prims.foldl (fun acc p => optMerge acc (some p.aabb)) acc = some bb →
      (∀ a, acc = some a → AABB.le a bb) ∧
        ∀ p ∈ prims, AABB.le p.aabb bb := by
  induction prims with
  | nil =>
    intro acc bb h
    refine ⟨fun a ha => ?_, fun p hp => absurd hp (List.not_mem_nil p)⟩
    rw [ha] at h
    cases Option.some.inj h
    exact AABB.le_refl _
  | cons q rest ih =>
    intro acc bb h
    rw [List.foldl_cons] at h
    obtain ⟨hacc, hmem⟩ := ih (optMerge acc (some q.aabb)) bb h
    rcases hq : acc with _ | a
    · refine ⟨fun a ha => Option.noConfusion ha, fun p hp => ?_⟩
      rcases List.mem_cons.1 hp with rfl | hp'
      · exact hacc p.aabb (by rw [hq]; rfl)
      · exact hmem p hp'
    · have hle := hacc (a.merge q.aabb) (by rw [hq]; rfl)
      refine ⟨fun a' ha' => ?_, fun p hp => ?_⟩
      · cases Option.some.inj ha'
        exact AABB.le_trans (AABB.merge_le_left _ q.aabb) hle
      · rcases List.mem_cons.1 hp with rfl | hp'
        · exact AABB.le_trans (AABB.merge_le_right a p.aabb) hle
        · exact hmem p hp'

/-- Every primitive of a range is contained in the range's accumulated
bounds (the `curr_bounds` of `build_bvh_tree`). -/
theorem boundsOf_le (prims : List Prim) (bb : AABB ℚ)
    (h : boundsOf prims = some bb) : ∀ p ∈ prims, AABB.le p.aabb bb :=
  (boundsOf_fold_le prims none bb h).2

/-- A range with accumulated bounds is nonempty (`AABB::empty()` never
equals a merged box; in the model the not-yet-merged accumulator is
`none`). -/
theorem boundsOf_ne_nil (prims : List Prim) (bb : AABB ℚ)
    (h : boundsOf prims = some bb) : prims ≠ [] := by
  intro hnil
  subst hnil
  exact Option.noConfusion h

/-! ### Structural lemmas on built trees and their flattening -/

/-- The concatenated leaf primitives count the tree's primitives. -/
theorem BVHTree.leavesConcat_length (t : BVHTree) :
    t.leavesConcat.length = t.countPrims := by
  induction t with
  | leaf bb ps => rfl
  | node bb ax l r ihl ihr =>
    simp [BVHTree.leavesConcat, BVHTree.countPrims, ihl, ihr]

/-- The flattening writes exactly `countNodes` records. -/
theorem flatten_length (t : BVHTree) :
    ∀ i fp, (flatten_bvh_tree t i fp).length = t.countNodes := by
  induction t with
  | leaf bb ps => intro i fp; rfl
  | node bb ax l r ihl ihr =>
    intro i fp
    simp [flatten_bvh_tree, BVHTree.countNodes, ihl, ihr]
    omega

/-- Every tree has at least one level. -/
theorem BVHTree.depth_pos (t : BVHTree) : 1 ≤ t.depth := by
  cases t <;> simp [BVHTree.depth]

/-- Every tree has at least one node. -/
theorem BVHTree.countNodes_pos (t : BVHTree) : 1 ≤ t.countNodes := by
  cases t
  · simp [BVHTree.countNodes]
  · simp [BVHTree.countNodes]
    omega

/-- `build_bvh_tree` only returns well-formed trees (nonempty leaves, node
AABBs containing their subtree's primitive AABBs), and the leaf primitives
are a permutation of the input range (the in-place `std::partition`
reorders them). -/
theorem build_wfb (nb mp : ℕ) : ∀ (fuel : ℕ) (prims : List Prim)
    (t : BVHTree), build_bvh_tree nb mp fuel prims = some t →
    t.WFB ∧ t.leavesConcat.Perm prims := by
  intro fuel
  induction fuel with
  | zero => intro prims t h; exact Option.noConfusion h
  | succ fuel ih =>
    intro prims t h
    unfold build_bvh_tree at h
    rcases hbo : boundsOf prims with _ | curr_bounds
    · rw [hbo] at h; exact Option.noConfusion h
    · simp only [hbo] at h
      by_cases hlen : prims.length = 1
      · rw [if_pos hlen] at h
        cases Option.some.inj h
        exact ⟨⟨boundsOf_ne_nil prims curr_bounds hbo,
          boundsOf_le prims curr_bounds hbo⟩, List.Perm.refl _⟩
      · rw [if_neg hlen] at h
        rcases hcb : centroidBoundsOf prims with _ | cb
        · rw [hcb] at h; exact Option.noConfusion h
        · simp only [hcb] at h
          rcases hss : selectSplit nb cb prims with _ | best
          · simp only [hss] at h
            cases Option.some.inj h
            exact ⟨⟨boundsOf_ne_nil prims curr_bounds hbo,
              boundsOf_le prims curr_bounds hbo⟩, List.Perm.refl _⟩
          · simp only [hss] at h
            split_ifs at h with hcond
            · rcases hbl : build_bvh_tree nb mp fuel
                  (prims.partition (fun p =>
                    bucketOf nb (cb.axisGet best.2.2)
                      (p.aabb.centroid.axisCoord best.2.2) ≤ best.2.1)).1
                with _ | l
              · rw [hbl] at h; exact Option.noConfusion h
              · rcases hbr : build_bvh_tree nb mp fuel
                    (prims.partition (fun p =>
                      bucketOf nb (cb.axisGet best.2.2)
                        (p.aabb.centroid.axisCoord best.2.2) ≤ best.2.1)).2
                  with _ | r
                · rw [hbl, hbr] at h; exact Option.noConfusion h
                · rw [hbl, hbr] at h
                  cases Option.some.inj h
                  obtain ⟨hwl, hpl⟩ := ih _ _ hbl
                  obtain ⟨hwr, hpr⟩ := ih _ _ hbr
                  have hperm : (l.leavesConcat ++ r.leavesConcat).Perm
                      prims := by
                    refine (hpl.append hpr).trans ?_
                    rw [List.partition_eq_filter_filter]
                    exact List.filter_append_perm _ prims
                  exact ⟨⟨hwl, hwr, fun p hp =>
                    boundsOf_le prims curr_bounds hbo p (hperm.mem_iff.1 hp)⟩,
                    hperm⟩
            · cases Option.some.inj h
              exact ⟨⟨boundsOf_ne_nil prims curr_bounds hbo,
                boundsOf_le prims curr_bounds hbo⟩, List.Perm.refl _⟩

/-- Decomposition of a successful `BVH::construct`: the built tree exists,
and the arrays are its leaf concatenation and preorder flattening. -/
theorem construct_some (world : List Prim) (nb mp : ℕ) (b : BVH)
    (hb : BVH.construct world nb mp = some b) :
    ∃ t, build_bvh_tree nb mp (world.length + 1) world = some t ∧
      b.primitives = t.leavesConcat ∧
      b.linear_bvh_nodes = flatten_bvh_tree t 0 0 := by
  unfold BVH.construct at hb
  rcases ht : build_bvh_tree nb mp (world.length + 1) world with _ | t
  · rw [ht] at hb; exact Option.noConfusion hb
  · rw [ht] at hb
    cases Option.some.inj hb
    exact ⟨t, rfl, rfl, rfl⟩

/-! ### Reading list segments -/

/-- The indexed read at the head of a dropped suffix. -/
theorem getD_of_drop_cons {β : Type} (d : β) (l : List β) (i : ℕ) (q : β)
    (qs : List β) (hd : l.drop i = q :: qs) : l.getD i d = q := by
  have h0 : (l.drop i)[0]? = some q := by
    rw [hd, List.getElem?_cons_zero]
  rw [List.getElem?_drop] at h0
  rw [List.getD_eq_getElem?_getD, Nat.add_zero] at *
  rw [h0]
  rfl

/-- Decomposing a nonempty segment equality into its head and the shifted
tail segment. -/
theorem segment_cons {β : Type} (l : List β) (fp n : ℕ) (p : β)
    (rest : List β) (hs : (l.drop fp).take (n + 1) = p :: rest) :
    l.drop fp = p :: l.drop (fp + 1) ∧ (l.drop (fp + 1)).take n = rest := by
  rcases hd : l.drop fp with _ | ⟨q, qs⟩
  · rw [hd] at hs
    exact absurd hs (by simp)
  · rw [hd, List.take_succ_cons] at hs
    obtain ⟨rfl, hrest⟩ := List.cons.inj hs
    have hq : l.drop (fp + 1) = qs := by
      rw [← List.drop_drop, hd]
      rfl
    refine ⟨?_, by rw [hq]; exact hrest⟩
    rw [hq]

/-- Peeling one iteration off the leaf loop. -/
theorem leafFold_succ (prims : List Prim) (ray : Ray3D ℚ) (lo : ℚ)
    (fp n : ℕ) (st : ℚ × Option (hit_info ℚ)) :
    leafFold prims ray lo fp (n + 1) st =
      leafFold prims ray lo (fp + 1) n
        (match (prims.getD fp default).hit ray ⟨lo, st.1⟩ with
          | some curr => (curr.hit_time, some curr)
          | none => st) := by
  unfold leafFold
  rw [List.range_succ_eq_map, List.foldl_cons, List.foldl_map]
  congr 1
  funext acc j
  have hidx : fp + (j + 1) = fp + 1 + j := by omega
  simp only [Nat.succ_eq_add_one, hidx]

/-- The leaf loop over a contiguous span of the primitive array is the hit
fold over the span's primitives. -/
theorem leafFold_eq_foldHits (prims : List Prim) (ray : Ray3D ℚ) (lo : ℚ) :
    ∀ (ps : List Prim) (fp : ℕ) (st : ℚ × Option (hit_info ℚ)),
      (prims.drop fp).take ps.length = ps →
      leafFold prims ray lo fp ps.length st = foldHits ray lo ps st := by
  intro ps
  induction ps with
  | nil => intro fp st _; rfl
  | cons p rest ih =>
    intro fp st hs
    obtain ⟨hdrop, hrest⟩ := segment_cons prims fp rest.length p rest hs
    have hp := getD_of_drop_cons default prims fp p _ hdrop
    rw [show (p :: rest).length = rest.length + 1 from rfl, leafFold_succ,
      hp, foldHits_cons]
    exact ih (fp + 1) _ hrest

/-! ### Layout decomposition -/

/-- Decomposing the layout of a leaf: the linear node record and the
primitive span. -/
theorem Layout_leaf (b : BVH) (bb : AABB ℚ) (ps : List Prim) (i fp : ℕ)
    (hL : b.Layout (.leaf bb ps) i fp) :
    b.linear_bvh_nodes.getD i default =
        ⟨bb, fp, ps.length, 0⟩ ∧
      (b.primitives.drop fp).take ps.length = ps := by
  obtain ⟨h1, h2⟩ := hL
  refine ⟨?_, h2⟩
  rcases hd : b.linear_bvh_nodes.drop i with _ | ⟨q, qs⟩
  · rw [hd] at h1
    exact absurd h1 (by simp [flatten_bvh_tree])
  · rw [hd] at h1
    simp only [flatten_bvh_tree, BVHTree.countNodes, List.take_succ_cons,
      List.take_zero] at h1
    obtain ⟨hq, -⟩ := List.cons.inj h1
    rw [getD_of_drop_cons default _ i q qs hd]
    exact hq

/-- Decomposing the layout of an interior node: the linear node record (with
the union slot holding the right child's index), and the layouts of the two
children at the flattening's offsets. -/
theorem Layout_node (b : BVH) (bb : AABB ℚ) (ax : ℕ) (l r : BVHTree)
    (i fp : ℕ) (hL : b.Layout (.node bb ax l r) i fp) :
    b.linear_bvh_nodes.getD i default =
        ⟨bb, i + 1 + l.countNodes, 0, ax⟩ ∧
      b.Layout l (i + 1) fp ∧
      b.Layout r (i + 1 + l.countNodes) (fp + l.countPrims) := by
  obtain ⟨h1, h2⟩ := hL
  have hFl : (flatten_bvh_tree l (i + 1) fp).length = l.countNodes :=
    flatten_length l _ _
  have hLl : l.leavesConcat.length = l.countPrims :=
    BVHTree.leavesConcat_length l
  rcases hd : b.linear_bvh_nodes.drop i with _ | ⟨q, qs⟩
  · rw [hd] at h1
    exact absurd h1 (by simp [flatten_bvh_tree])
  · rw [hd] at h1
    rw [show (BVHTree.node bb ax l r).countNodes =
        (l.countNodes + r.countNodes) + 1 from by
      simp only [BVHTree.countNodes]; omega, List.take_succ_cons] at h1
    simp only [flatten_bvh_tree] at h1
    obtain ⟨hq, hseg⟩ := List.cons.inj h1
    have hdrop1 : b.linear_bvh_nodes.drop (i + 1) = qs := by
      rw [← List.drop_drop, hd]
      rfl
    simp only [BVHTree.countPrims, BVHTree.leavesConcat] at h2
    constructor
    · rw [getD_of_drop_cons default _ i q qs hd]
      exact hq
    constructor
    · constructor
      · rw [hdrop1]
        have h3 := congrArg (fun s => List.take l.countNodes s) hseg
        simp only [List.take_take,
          min_eq_left (Nat.le_add_right l.countNodes r.countNodes),
          List.take_left' hFl] at h3
        exact h3
      · have h3 := congrArg (fun s => List.take l.countPrims s) h2
        simp only [List.take_take,
          min_eq_left (Nat.le_add_right l.countPrims r.countPrims),
          List.take_left' hLl] at h3
        exact h3
    · constructor
      · rw [← List.drop_drop, hdrop1]
        have h3 := congrArg (fun s => List.drop l.countNodes s) hseg
        simp only [List.drop_take, List.drop_left' hFl] at h3
        rw [show l.countNodes + r.countNodes - l.countNodes = r.countNodes
          from by omega] at h3
        exact h3
      · rw [← List.drop_drop]
        have h3 := congrArg (fun s => List.drop l.countPrims s) h2
        simp only [List.drop_take, List.drop_left' hLl] at h3
        rw [show l.countPrims + r.countPrims - l.countPrims = r.countPrims
          from by omega] at h3
        exact h3

/-! ### Completeness of the optimized slab test -/

/-- If the ray's point at time `t` has its coordinate inside the axis slab
and the direction component is nonzero, then `t` lies between the near and
far slab times of the optimized test. -/
theorem axis_time_bounds {α : Type} [LinearOrderedField α] (iv : Interval α)
    (o d t : α) (hd : d ≠ 0) (h1 : iv.min ≤ o + d * t)
    (h2 : o + d * t ≤ iv.max) :
    (iv.get (decide (d < 0)) - o) * (1 / d) ≤ t ∧
      t ≤ (iv.get (!decide (d < 0)) - o) * (1 / d) := by
  have hc : d * t * (1 / d) = t := by field_simp
  rcases lt_or_gt_of_ne hd with hneg | hpos
  · rw [decide_eq_true hneg]
    simp only [Interval.get, Bool.not_true, if_true, if_false, ite_true,
      ite_false, Bool.false_eq_true]
    have h1d : 1 / d ≤ 0 := (one_div_neg.mpr hneg).le
    constructor
    · have hdt : d * t ≤ iv.max - o := by linarith
      have h3 := mul_le_mul_of_nonpos_right hdt h1d
      rw [hc] at h3
      exact h3
    · have hdt : iv.min - o ≤ d * t := by linarith
      have h3 := mul_le_mul_of_nonpos_right hdt h1d
      rw [hc] at h3
      exact h3
  · rw [decide_eq_false (not_lt.2 hpos.le)]
    simp only [Interval.get, Bool.not_false, if_true, if_false, ite_true,
      ite_false, Bool.false_eq_true]
    have h1d : 0 ≤ 1 / d := (one_div_pos.mpr hpos).le
    constructor
    · have hdt : iv.min - o ≤ d * t := by linarith
      have h3 := mul_le_mul_of_nonneg_right hdt h1d
      rw [hc] at h3
      exact h3
    · have hdt : d * t ≤ iv.max - o := by linarith
      have h3 := mul_le_mul_of_nonneg_right hdt h1d
      rw [hc] at h3
      exact h3

/-- Completeness of `AABB::is_hit_by_optimized` with the traversal's
precomputed reciprocals and flags: a ray whose direction components are all
nonzero and whose point at some time strictly inside the query interval lies
inside the box is reported as a hit. -/
theorem slab_complete (bb : AABB ℚ) (ray : Ray3D ℚ) (lo m t : ℚ)
    (hx : ray.dir.x ≠ 0) (hy : ray.dir.y ≠ 0) (hz : ray.dir.z ≠ 0)
    (hcont : bb.containsPoint (ray.at t)) (hlo : lo < t) (hm : t < m) :
    bb.is_hit_by_optimized ray ⟨lo, m⟩ (invRayDir ray) (dirIsNegative ray)
      = true := by
  obtain ⟨hcx, hcy, hcz⟩ := hcont
  simp only [Ray3D.at, Vec3D.add, Vec3D.smul, Interval.contains_inclusive]
    at hcx hcy hcz
  obtain ⟨hx1, hx2⟩ :=
    axis_time_bounds bb.x ray.origin.x ray.dir.x t hx hcx.1 hcx.2
  obtain ⟨hy1, hy2⟩ :=
    axis_time_bounds bb.y ray.origin.y ray.dir.y t hy hcy.1 hcy.2
  obtain ⟨hz1, hz2⟩ :=
    axis_time_bounds bb.z ray.origin.z ray.dir.z t hz hcz.1 hcz.2
  simp only [AABB.is_hit_by_optimized, invRayDir, dirIsNegative]
  set xa := (bb.x.get (decide (ray.dir.x < 0)) - ray.origin.x) *
    (1 / ray.dir.x) with hxa
  set xb := (bb.x.get (!decide (ray.dir.x < 0)) - ray.origin.x) *
    (1 / ray.dir.x) with hxb
  set ya := (bb.y.get (decide (ray.dir.y < 0)) - ray.origin.y) *
    (1 / ray.dir.y) with hya
  set yb := (bb.y.get (!decide (ray.dir.y < 0)) - ray.origin.y) *
    (1 / ray.dir.y) with hyb
  set za := (bb.z.get (decide (ray.dir.z < 0)) - ray.origin.z) *
    (1 / ray.dir.z) with hza
  set zb := (bb.z.get (!decide (ray.dir.z < 0)) - ray.origin.z) *
    (1 / ray.dir.z) with hzb
  have hm1 : (if ya > xa then ya else xa) ≤ t := by split_ifs <;> linarith
  have hm2 : t ≤ (if yb < xb then yb else xb) := by split_ifs <;> linarith
  rw [if_neg (by push_neg; exact ⟨by linarith, by linarith⟩ :
    ¬ (xa > yb ∨ ya > xb))]
  rw [if_neg (by push_neg; exact ⟨by linarith, by linarith⟩)]
  rw [Bool.and_eq_true, decide_eq_true_eq, decide_eq_true_eq]
  have hf1 : (if za > (if ya > xa then ya else xa) then za
      else (if ya > xa then ya else xa)) ≤ t := by
    split_ifs <;> linarith
  have hf2 : t ≤ (if zb < (if yb < xb then yb else xb) then zb
      else (if yb < xb then yb else xb)) := by
    split_ifs <;> linarith
  exact ⟨by linarith, by linarith⟩

/-! ### The traversal's visit order -/

/-- The visit order of a subtree is a permutation of its primitives. -/
theorem visitList_perm (dneg : Vec3D Bool) (t : BVHTree) :
    (t.visitList dneg).Perm t.leavesConcat := by
  induction t with
  | leaf bb ps => exact List.Perm.refl ps
  | node bb ax l r ihl ihr =>
    simp only [BVHTree.visitList, BVHTree.leavesConcat]
    split_ifs
    · exact (ihr.append ihl).trans List.perm_append_comm
    · exact ihl.append ihr

/-- The recursive traversal of a well-formed subtree with sound primitives
computes the hit fold over its visit order: pruned subtrees contribute
nothing because soundness puts every canonical hit inside the subtree's AABB
and the optimized slab test is complete on nonzero-direction rays. -/
theorem treeHit_eq_foldHits (primsArr : List Prim) (ray : Ray3D ℚ) (lo : ℚ)
    (hx : ray.dir.x ≠ 0) (hy : ray.dir.y ≠ 0) (hz : ray.dir.z ≠ 0) :
    ∀ (t : BVHTree), t.WFB →
      (∀ p ∈ t.leavesConcat, p.SoundFor ray) →
      ∀ st, BVHTree.treeHit primsArr ray lo (invRayDir ray)
          (dirIsNegative ray) t st =
        foldHits ray lo (t.visitList (dirIsNegative ray)) st := by
  intro t
  induction t with
  | leaf bb ps =>
    intro hwf hsound st
    simp only [BVHTree.treeHit, BVHTree.visitList]
    split_ifs with hslab
    · rfl
    · refine (foldHits_no_hit ray lo ps st ?_).symm
      intro p hp h hc hlt
      obtain ⟨hlo, hcont⟩ := hsound p hp lo h hc
      exact hslab (slab_complete bb ray lo st.1 h.hit_time hx hy hz
        (AABB.containsPoint_mono (hwf.2 p hp) _ hcont) hlo hlt)
  | node bb ax l r ihl ihr =>
    intro hwf hsound st
    obtain ⟨hwl, hwr, hble⟩ := hwf
    have hsl : ∀ p ∈ l.leavesConcat, p.SoundFor ray := fun p hp =>
      hsound p (List.mem_append_left _ hp)
    have hsr : ∀ p ∈ r.leavesConcat, p.SoundFor ray := fun p hp =>
      hsound p (List.mem_append_right _ hp)
    simp only [BVHTree.treeHit, BVHTree.visitList]
    split_ifs with hslab hflag
    · rw [ihr hwr hsr st, ihl hwl hsl, foldHits_append]
    · rw [ihl hwl hsl st, ihr hwr hsr, foldHits_append]
    · refine (foldHits_no_hit ray lo _ st ?_).symm
      intro p hp h hc hlt
      have hpl : p ∈ l.leavesConcat ++ r.leavesConcat := by
        rcases List.mem_append.1 hp with h' | h'
        · exact List.mem_append_right _
            ((visitList_perm _ r).mem_iff.1 h')
        · exact List.mem_append_left _
            ((visitList_perm _ l).mem_iff.1 h')
      obtain ⟨hlo, hcont⟩ := hsound p hpl lo h hc
      exact hslab (slab_complete bb ray lo st.1 h.hit_time hx hy hz
        (AABB.containsPoint_mono (hble p hpl) _ hcont) hlo hlt)
    · refine (foldHits_no_hit ray lo _ st ?_).symm
      intro p hp h hc hlt
      have hpl : p ∈ l.leavesConcat ++ r.leavesConcat := by
        rcases List.mem_append.1 hp with h' | h'
        · exact List.mem_append_left _
            ((visitList_perm _ l).mem_iff.1 h')
        · exact List.mem_append_right _
            ((visitList_perm _ r).mem_iff.1 h')
      obtain ⟨hlo, hcont⟩ := hsound p hpl lo h hc
      exact hslab (slab_complete bb ray lo st.1 h.hit_time hx hy hz
        (AABB.containsPoint_mono (hble p hpl) _ hcont) hlo hlt)

/-! ### The iterative traversal computes the recursive one -/

/-- Unfolding one iteration of the traversal loop. -/
theorem BVH.iterate_succ (b : BVH) (ray : Ray3D ℚ) (lo : ℚ) (inv : Vec3D ℚ)
    (dneg : Vec3D Bool) (K : ℕ) (st : TravState) :
    b.iterate ray lo inv dneg (K + 1) st =
      match b.step ray lo inv dneg st with
      | .inl st' => b.iterate ray lo inv dneg K st'
      | .inr r => .inr r := rfl

/-- One continuing iteration of the traversal loop. -/
theorem BVH.iterate_succ_inl {b : BVH} {ray : Ray3D ℚ} {lo : ℚ}
    {inv : Vec3D ℚ} {dneg : Vec3D Bool} {st st' : TravState} (K : ℕ)
    (hstep : b.step ray lo inv dneg st = .inl st') :
    b.iterate ray lo inv dneg (K + 1) st =
      b.iterate ray lo inv dneg K st' := by
  rw [BVH.iterate_succ, hstep]

/-- One returning iteration of the traversal loop. -/
theorem BVH.iterate_succ_inr {b : BVH} {ray : Ray3D ℚ} {lo : ℚ}
    {inv : Vec3D ℚ} {dneg : Vec3D Bool} {st : TravState}
    {r : Option (hit_info ℚ)} (K : ℕ)
    (hstep : b.step ray lo inv dneg st = .inr r) :
    b.iterate ray lo inv dneg (K + 1) st = .inr r := by
  rw [BVH.iterate_succ, hstep]

/-- The trajectory of the iterative DFS through a laid-out, well-formed
subtree: starting at the subtree's root index with any stack, some number
`k ≤ countNodes` of loop iterations consumes exactly the subtree, leaving
the state the recursive `treeHit` computes and popping the stack (or
returning, if the stack is empty); moreover every intermediate state keeps
at most `stack length + depth - 1` indices on the DFS stack. -/
theorem BVH.traverse_tree (b : BVH) (ray : Ray3D ℚ) (lo : ℚ) (inv : Vec3D ℚ)
    (dneg : Vec3D Bool) :
    ∀ (t : BVHTree), t.WFB → ∀ (i fp : ℕ), b.Layout t i fp →
      ∀ (s : List ℕ) (m : ℚ) (res : Option (hit_info ℚ)),
      ∃ k, 1 ≤ k ∧ k ≤ t.countNodes ∧
        (∀ K, k ≤ K →
          (s = [] → b.iterate ray lo inv dneg K ⟨i, s, m, res⟩ =
            .inr (BVHTree.treeHit b.primitives ray lo inv dneg t
              (m, res)).2) ∧
          (∀ c rest, s = c :: rest →
            b.iterate ray lo inv dneg K ⟨i, s, m, res⟩ =
              b.iterate ray lo inv dneg (K - k)
                ⟨c, rest,
                  (BVHTree.treeHit b.primitives ray lo inv dneg t (m, res)).1,
                  (BVHTree.treeHit b.primitives ray lo inv dneg t
                    (m, res)).2⟩)) ∧
        ∀ j, j < k → ∀ st',
          b.iterate ray lo inv dneg j ⟨i, s, m, res⟩ = .inl st' →
          st'.dfs_callstack.length + 1 ≤ s.length + t.depth := by
  intro t
  induction t with
  | leaf bb ps =>
    intro hwf i fp hL s m res
    obtain ⟨hrec, hseg⟩ := Layout_leaf b bb ps i fp hL
    rw [List.getD_eq_getElem?_getD] at hrec
    have hpos : 0 < ps.length := List.length_pos.2 hwf.1
    have hLF : leafFold b.primitives ray lo fp ps.length (m, res) =
        foldHits ray lo ps (m, res) :=
      leafFold_eq_foldHits b.primitives ray lo ps fp (m, res) hseg
    refine ⟨1, le_rfl, BVHTree.countNodes_pos _, ?_, ?_⟩
    · intro K hK
      obtain ⟨K', rfl⟩ : ∃ K', K = K' + 1 := ⟨K - 1, by omega⟩
      by_cases hslab : bb.is_hit_by_optimized ray ⟨lo, m⟩ inv dneg = true
      · have hth : BVHTree.treeHit b.primitives ray lo inv dneg
            (.leaf bb ps) (m, res) = foldHits ray lo ps (m, res) := by
          simp only [BVHTree.treeHit]
          rw [if_pos hslab]
        constructor
        · rintro rfl
          have hstep : b.step ray lo inv dneg ⟨i, [], m, res⟩ =
              .inr (foldHits ray lo ps (m, res)).2 := by
            simp [BVH.step, hrec, hslab, hpos, hLF]
          rw [BVH.iterate_succ_inr K' hstep, hth]
        · rintro c rest rfl
          have hstep : b.step ray lo inv dneg ⟨i, c :: rest, m, res⟩ =
              .inl ⟨c, rest, (foldHits ray lo ps (m, res)).1,
                (foldHits ray lo ps (m, res)).2⟩ := by
            simp [BVH.step, hrec, hslab, hpos, hLF]
          rw [BVH.iterate_succ_inl K' hstep, hth]
          simp only [Nat.add_sub_cancel]
      · have hth : BVHTree.treeHit b.primitives ray lo inv dneg
            (.leaf bb ps) (m, res) = (m, res) := by
          simp only [BVHTree.treeHit]
          rw [if_neg hslab]
        constructor
        · rintro rfl
          have hstep : b.step ray lo inv dneg ⟨i, [], m, res⟩ = .inr res := by
            simp [BVH.step, hrec, hslab]
          rw [BVH.iterate_succ_inr K' hstep, hth]
        · rintro c rest rfl
          have hstep : b.step ray lo inv dneg ⟨i, c :: rest, m, res⟩ =
              .inl ⟨c, rest, m, res⟩ := by
            simp [BVH.step, hrec, hslab]
          rw [BVH.iterate_succ_inl K' hstep, hth]
          simp only [Nat.add_sub_cancel]
    · intro j hj st' hit
      have hj0 : j = 0 := by omega
      subst hj0
      cases Sum.inl.inj hit
      show s.length + 1 ≤ s.length + 1
      exact le_rfl
  | node bb ax l r ihl ihr =>
    intro hwf i fp hL s m res
    obtain ⟨hwl, hwr, hble⟩ := hwf
    obtain ⟨hrec, hLl, hLr⟩ := Layout_node b bb ax l r i fp hL
    rw [List.getD_eq_getElem?_getD] at hrec
    by_cases hslab : bb.is_hit_by_optimized ray ⟨lo, m⟩ inv dneg = true
    · by_cases hflag : axisFlag dneg ax = true
      · obtain ⟨kr, hkr1, hkr2, hKr, hJr⟩ :=
          ihr hwr _ _ hLr ((i + 1) :: s) m res
        obtain ⟨kl, hkl1, hkl2, hKl, hJl⟩ := ihl hwl _ _ hLl s
          (BVHTree.treeHit b.primitives ray lo inv dneg r (m, res)).1
          (BVHTree.treeHit b.primitives ray lo inv dneg r (m, res)).2
        have hth : BVHTree.treeHit b.primitives ray lo inv dneg
            (.node bb ax l r) (m, res) =
            BVHTree.treeHit b.primitives ray lo inv dneg l
              ((BVHTree.treeHit b.primitives ray lo inv dneg r (m, res)).1,
               (BVHTree.treeHit b.primitives ray lo inv dneg r
                 (m, res)).2) := by
          simp only [BVHTree.treeHit]
          rw [if_pos hslab, if_pos hflag, Prod.mk.eta]
        have hstep : b.step ray lo inv dneg ⟨i, s, m, res⟩ =
            .inl ⟨i + 1 + l.countNodes, (i + 1) :: s, m, res⟩ := by
          simp [BVH.step, hrec, hslab, hflag]
        have hcn : (BVHTree.node bb ax l r).countNodes =
            1 + l.countNodes + r.countNodes := by
          simp only [BVHTree.countNodes]
        have hdep : (BVHTree.node bb ax l r).depth =
            1 + Max.max l.depth r.depth := by
          simp only [BVHTree.depth]
        refine ⟨1 + kr + kl, by omega, by omega, ?_, ?_⟩
        · intro K hK
          obtain ⟨K', rfl⟩ : ∃ K', K = K' + 1 := ⟨K - 1, by omega⟩
          have h1 := BVH.iterate_succ_inl (b := b) K' hstep
          have h2 := (hKr K' (by omega)).2 (i + 1) s rfl
          constructor
          · rintro rfl
            have h3 := (hKl (K' - kr) (by omega)).1 rfl
            rw [h1, h2, h3, hth]
          · rintro c rest rfl
            have h3 := (hKl (K' - kr) (by omega)).2 c rest rfl
            rw [h1, h2, h3, hth]
            congr 1
            omega
        · intro j hj st' hit
          rcases Nat.eq_zero_or_pos j with rfl | hjpos
          · cases Sum.inl.inj hit
            show s.length + 1 ≤ s.length + (BVHTree.node bb ax l r).depth
            exact Nat.add_le_add_left (BVHTree.depth_pos _) s.length
          · obtain ⟨j', rfl⟩ : ∃ j', j = j' + 1 := ⟨j - 1, by omega⟩
            rw [BVH.iterate_succ_inl j' hstep] at hit
            show st'.dfs_callstack.length + 1 ≤
              s.length + (BVHTree.node bb ax l r).depth
            rw [hdep]
            by_cases hj' : j' < kr
            · have h5 := hJr j' hj' st' hit
              have h6 : r.depth ≤ Max.max l.depth r.depth := le_max_right _ _
              have h7 : ((i + 1) :: s).length = s.length + 1 := rfl
              rw [h7] at h5
              linarith
            · rw [(hKr j' (not_lt.1 hj')).2 (i + 1) s rfl] at hit
              have hj3 : j' - kr < kl := by omega
              have h5 := hJl (j' - kr) hj3 st' hit
              have h6 : l.depth ≤ Max.max l.depth r.depth := le_max_left _ _
              linarith
      · obtain ⟨kl, hkl1, hkl2, hKl, hJl⟩ :=
          ihl hwl _ _ hLl ((i + 1 + l.countNodes) :: s) m res
        obtain ⟨kr, hkr1, hkr2, hKr, hJr⟩ := ihr hwr _ _ hLr s
          (BVHTree.treeHit b.primitives ray lo inv dneg l (m, res)).1
          (BVHTree.treeHit b.primitives ray lo inv dneg l (m, res)).2
        have hth : BVHTree.treeHit b.primitives ray lo inv dneg
            (.node bb ax l r) (m, res) =
            BVHTree.treeHit b.primitives ray lo inv dneg r
              ((BVHTree.treeHit b.primitives ray lo inv dneg l (m, res)).1,
               (BVHTree.treeHit b.primitives ray lo inv dneg l
                 (m, res)).2) := by
          simp only [BVHTree.treeHit]
          rw [if_pos hslab, if_neg hflag, Prod.mk.eta]
        have hstep : b.step ray lo inv dneg ⟨i, s, m, res⟩ =
            .inl ⟨i + 1, (i + 1 + l.countNodes) :: s, m, res⟩ := by
          simp [BVH.step, hrec, hslab, hflag]
        have hcn : (BVHTree.node bb ax l r).countNodes =
            1 + l.countNodes + r.countNodes := by
          simp only [BVHTree.countNodes]
        have hdep : (BVHTree.node bb ax l r).depth =
            1 + Max.max l.depth r.depth := by
          simp only [BVHTree.depth]
        refine ⟨1 + kl + kr, by omega, by omega, ?_, ?_⟩
        · intro K hK
          obtain ⟨K', rfl⟩ : ∃ K', K = K' + 1 := ⟨K - 1, by omega⟩
          have h1 := BVH.iterate_succ_inl (b := b) K' hstep
          have h2 := (hKl K' (by omega)).2 (i + 1 + l.countNodes) s rfl
          constructor
          · rintro rfl
            have h3 := (hKr (K' - kl) (by omega)).1 rfl
            rw [h1, h2, h3, hth]
          · rintro c rest rfl
            have h3 := (hKr (K' - kl) (by omega)).2 c rest rfl
            rw [h1, h2, h3, hth]
            congr 1
            omega
        · intro j hj st' hit
          rcases Nat.eq_zero_or_pos j with rfl | hjpos
          · cases Sum.inl.inj hit
            show s.length + 1 ≤ s.length + (BVHTree.node bb ax l r).depth
            exact Nat.add_le_add_left (BVHTree.depth_pos _) s.length
          · obtain ⟨j', rfl⟩ : ∃ j', j = j' + 1 := ⟨j - 1, by omega⟩
            rw [BVH.iterate_succ_inl j' hstep] at hit
            show st'.dfs_callstack.length + 1 ≤
              s.length + (BVHTree.node bb ax l r).depth
            rw [hdep]
            by_cases hj' : j' < kl
            · have h5 := hJl j' hj' st' hit
              have h6 : l.depth ≤ Max.max l.depth r.depth := le_max_left _ _
              have h7 : ((i + 1 + l.countNodes) :: s).length = s.length + 1 :=
                rfl
              rw [h7] at h5
              linarith
            · rw [(hKl j' (not_lt.1 hj')).2 (i + 1 + l.countNodes) s rfl]
                at hit
              have hj3 : j' - kl < kr := by omega
              have h5 := hJr (j' - kl) hj3 st' hit
              have h6 : r.depth ≤ Max.max l.depth r.depth := le_max_right _ _
              linarith
    · refine ⟨1, le_rfl, BVHTree.countNodes_pos _, ?_, ?_⟩
      · intro K hK
        obtain ⟨K', rfl⟩ : ∃ K', K = K' + 1 := ⟨K - 1, by omega⟩
        have hth : BVHTree.treeHit b.primitives ray lo inv dneg
            (.node bb ax l r) (m, res) = (m, res) := by
          simp only [BVHTree.treeHit]
          rw [if_neg hslab]
        constructor
        · rintro rfl
          have hstep : b.step ray lo inv dneg ⟨i, [], m, res⟩ = .inr res := by
            simp [BVH.step, hrec, hslab]
          rw [BVH.iterate_succ_inr K' hstep, hth]
        · rintro c rest rfl
          have hstep : b.step ray lo inv dneg ⟨i, c :: rest, m, res⟩ =
              .inl ⟨c, rest, m, res⟩ := by
            simp [BVH.step, hrec, hslab]
          rw [BVH.iterate_succ_inl K' hstep, hth]
          simp only [Nat.add_sub_cancel]
      · intro j hj st' hit
        have hj0 : j = 0 := by omega
        subst hj0
        cases Sum.inl.inj hit
        show s.length + 1 ≤ s.length + (BVHTree.node bb ax l r).depth
        exact Nat.add_le_add_left (BVHTree.depth_pos _) s.length

/-- A constructor-built BVH is laid out at the root. -/
theorem construct_layout (b : BVH)
    (t : BVHTree) (hp : b.primitives = t.leavesConcat)
    (hn : b.linear_bvh_nodes = flatten_bvh_tree t 0 0) : b.Layout t 0 0 := by
  constructor
  · rw [hn, List.drop_zero, ← flatten_length t 0 0, List.take_length]
  · rw [hp, List.drop_zero, ← BVHTree.leavesConcat_length, List.take_length]

/-- `BVH::hit_by` on a constructor-built BVH computes the recursive
traversal of the built tree: the fuel `length + 1` exceeds the at most
`countNodes` loop iterations the trajectory lemma needs. -/
theorem BVH.hit_by_eq_treeHit (world : List Prim) (nb mp : ℕ) (b : BVH)
    (hb : BVH.construct world nb mp = some b) (t : BVHTree)
    (ht : build_bvh_tree nb mp (world.length + 1) world = some t)
    (ray : Ray3D ℚ) (rt : Interval ℚ) :
    b.hit_by ray rt =
      (BVHTree.treeHit b.primitives ray rt.min (invRayDir ray)
        (dirIsNegative ray) t (rt.max, none)).2 := by
  obtain ⟨t', ht', hp, hn⟩ := construct_some world nb mp b hb
  rw [ht] at ht'
  cases Option.some.inj ht'
  obtain ⟨hwf, hperm⟩ := build_wfb nb mp _ world t ht
  obtain ⟨k, hk1, hk2, hKform, -⟩ := BVH.traverse_tree b ray rt.min
    (invRayDir ray) (dirIsNegative ray) t hwf 0 0
    (construct_layout b t hp hn) [] rt.max none
  have hcount : t.countNodes = b.linear_bvh_nodes.length := by
    rw [hn, flatten_length]
  have hiter := (hKform (b.linear_bvh_nodes.length + 1) (by omega)).1 rfl
  unfold BVH.hit_by
  rw [hiter]

/-- The dichotomy of a full hit fold from `(max, none)`: either nothing hit
below `max` and the state is unchanged, or the result is the canonical hit
of some member attaining the final (strictly lowered) running minimum. -/
theorem foldHits_final (ray : Ray3D ℚ) (lo : ℚ) (l : List Prim) (M : ℚ) :
    ((foldHits ray lo l (M, none)).2 = none ∧
        (foldHits ray lo l (M, none)).1 = M) ∨
      (∃ h, (foldHits ray lo l (M, none)).2 = some h ∧
        h.hit_time = (foldHits ray lo l (M, none)).1 ∧
        (foldHits ray lo l (M, none)).1 < M ∧
        ∃ p ∈ l, p.chit ray lo = some h) := by
  rcases eq_or_lt_of_le (foldHits_fst_le ray lo l (M, none)) with heq | hlt
  · exact Or.inl ⟨foldHits_fst_eq ray lo l (M, none) heq, heq⟩
  · obtain ⟨p, hp, h, hchit, htime, hres⟩ :=
      foldHits_achiever ray lo l (M, none) hlt
    exact Or.inr ⟨h, hres, htime, hlt, p, hp, hchit⟩

/-- The final running minimum of the hit fold is permutation-invariant. -/
theorem foldHits_perm_fst {l₁ l₂ : List Prim} (hperm : l₁.Perm l₂)
    (ray : Ray3D ℚ) (lo M : ℚ) :
    (foldHits ray lo l₁ (M, none)).1 = (foldHits ray lo l₂ (M, none)).1 := by
  rw [foldHits_fst_formula, foldHits_fst_formula]
  exact minfold_perm ray lo hperm M

/-- C1 (amended): for every world of sound primitives, every ray with all
direction components nonzero, and every query interval, the constructed
BVH's `hit_by` returns a hit exactly when the brute-force `Scene::hit_by`
does, and the two hit times are equal (exactly — the model is exact, so
"within 1 ULP" holds). The claim's further assertion that both hits come
from the *same primitive* is false in general: when two primitives attain
the same earliest hit time, the scene keeps the first in list order while
the BVH keeps the last in its near-to-far visit order, which can disagree
(see the counterexample); under the extra hypothesis that equal-time
canonical hits carry equal records, the two results are equal outright. -/
theorem C1_bvh_scene_amended (world : List Prim) (nb mp : ℕ) (b : BVH)
    (hb : BVH.construct world nb mp = some b) (ray : Ray3D ℚ)
    (rt : Interval ℚ) (hsound : ∀ p ∈ world, p.SoundFor ray)
    (hx : ray.dir.x ≠ 0) (hy : ray.dir.y ≠ 0) (hz : ray.dir.z ≠ 0) :
    ((b.hit_by ray rt).isSome = (Scene.hit_by world ray rt).isSome) ∧
    (∀ h₁ h₂, b.hit_by ray rt = some h₁ →
      Scene.hit_by world ray rt = some h₂ → h₁.hit_time = h₂.hit_time) ∧
    ((∀ p ∈ world, ∀ q ∈ world, ∀ h₁ h₂, p.chit ray rt.min = some h₁ →
        q.chit ray rt.min = some h₂ → h₁.hit_time = h₂.hit_time → h₁ = h₂) →
      b.hit_by ray rt = Scene.hit_by world ray rt) := by
  obtain ⟨t, ht, hp, hn⟩ := construct_some world nb mp b hb
  obtain ⟨hwf, hperm⟩ := build_wfb nb mp _ world t ht
  have hsound' : ∀ p ∈ t.leavesConcat, p.SoundFor ray := fun p hpm =>
    hsound p (hperm.mem_iff.1 hpm)
  have hBVH : b.hit_by ray rt =
      (foldHits ray rt.min (t.visitList (dirIsNegative ray))
        (rt.max, none)).2 := by
    rw [BVH.hit_by_eq_treeHit world nb mp b hb t ht ray rt]
    exact congrArg Prod.snd (treeHit_eq_foldHits b.primitives ray rt.min
      hx hy hz t hwf hsound' (rt.max, none))
  have hScene : Scene.hit_by world ray rt =
      (foldHits ray rt.min world (rt.max, none)).2 := rfl
  have hpermv : (t.visitList (dirIsNegative ray)).Perm world :=
    (visitList_perm _ t).trans hperm
  have hfst := foldHits_perm_fst hpermv ray rt.min rt.max
  rcases foldHits_final ray rt.min (t.visitList (dirIsNegative ray)) rt.max
    with ⟨hbn, hbm⟩ | ⟨h₁, hb2, hbt, hblt, p, hpm, hpch⟩ <;>
    rcases foldHits_final ray rt.min world rt.max
      with ⟨hsn, hsm⟩ | ⟨h₂, hs2, hst, hslt, q, hqm, hqch⟩
  · refine ⟨?_, ?_, ?_⟩
    · rw [hBVH, hScene, hbn, hsn]
    · intro h₁ h₂ hbh hsh
      rw [hBVH, hbn] at hbh
      exact Option.noConfusion hbh
    · intro _
      rw [hBVH, hScene, hbn, hsn]
  · exact absurd hfst (by rw [hbm]; exact ne_of_gt hslt)
  · exact absurd hfst (by rw [hsm]; exact ne_of_lt hblt)
  · refine ⟨?_, ?_, ?_⟩
    · rw [hBVH, hScene, hb2, hs2]
      rfl
    · intro h₁' h₂' hbh hsh
      rw [hBVH, hb2] at hbh
      rw [hScene, hs2] at hsh
      cases Option.some.inj hbh
      cases Option.some.inj hsh
      rw [hbt, hst, hfst]
    · intro huniq
      have hteq : h₁.hit_time = h₂.hit_time := by rw [hbt, hst, hfst]
      have : h₁ = h₂ :=
        huniq p (hpermv.mem_iff.1 hpm) q hqm h₁ h₂ hpch hqch hteq
      rw [hBVH, hScene, hb2, hs2, this]

/-! ### Soundness of the tie-world parallelograms -/

/-- The canonical hit of `paraXY` for the tie ray: the single candidate time
is `t = 1`, inside the barycentric range, so the hit exists exactly when the
queried lower bound lies below 1. -/
theorem paraXY_chit (lo : ℚ) :
    paraXY.chit tieRay lo = if lo < 1 then some tieHitXY else none := by
  unfold Parallelogram.chit paraXY tieRay tieHitXY
  norm_num [dot, cross, Vec3D.sub, Ray3D.at, Vec3D.add, Vec3D.smul,
    hit_info.make, Interval.contains_inclusive, ite_not]
  split_ifs <;> first | rfl | (exfalso; linarith)

/-- The canonical hit of `paraYZ` for the tie ray: also at `t = 1`. -/
theorem paraYZ_chit (lo : ℚ) :
    paraYZ.chit tieRay lo = if lo < 1 then some tieHitYZ else none := by
  unfold Parallelogram.chit paraYZ tieRay tieHitYZ
  norm_num [dot, cross, Vec3D.sub, Ray3D.at, Vec3D.add, Vec3D.smul,
    hit_info.make, Interval.contains_inclusive, ite_not]
  split_ifs <;> first | rfl | (exfalso; linarith)

/-- The crossing point `(1/4000, 0, 1/1000)` lies inside `paraXY`'s padded
AABB. -/
theorem paraXY_aabb_contains :
    paraXY.aabb.containsPoint (tieRay.at 1) := by
  norm_num [paraXY, tieRay, Ray3D.at, Vec3D.add, Vec3D.smul,
    AABB.containsPoint, Interval.contains_inclusive, AABB.from_points,
    AABB.merge_with_point, AABB.of_point, Interval.merge_with_val,
    AABB.ensure_min_axis_length, Interval.pad_with, Interval.size,
    min_def, max_def]

/-- The crossing point also lies inside `paraYZ`'s padded AABB. -/
theorem paraYZ_aabb_contains :
    paraYZ.aabb.containsPoint (tieRay.at 1) := by
  norm_num [paraYZ, tieRay, Ray3D.at, Vec3D.add, Vec3D.smul,
    AABB.containsPoint, Interval.contains_inclusive, AABB.from_points,
    AABB.merge_with_point, AABB.of_point, Interval.merge_with_val,
    AABB.ensure_min_axis_length, Interval.pad_with, Interval.size,
    min_def, max_def]

/-- Both tie-world primitives are sound for the tie ray: their canonical
hits lie strictly past the queried lower bound and inside their AABBs. -/
theorem tieSound : ∀ p ∈ tieWorld, p.SoundFor tieRay := by
  intro p hp
  simp only [tieWorld, List.mem_cons, List.not_mem_nil, or_false] at hp
  rcases hp with rfl | rfl <;> intro lo h hc
  · rw [show (Prim.ofParallelogram paraXY).chit = paraXY.chit from rfl,
      paraXY_chit] at hc
    split_ifs at hc with hl
    cases Option.some.inj hc
    exact ⟨hl, paraXY_aabb_contains⟩
  · rw [show (Prim.ofParallelogram paraYZ).chit = paraYZ.chit from rfl,
      paraYZ_chit] at hc
    split_ifs at hc with hl
    cases Option.some.inj hc
    exact ⟨hl, paraYZ_aabb_contains⟩

/-- C1 counterexample (to the "same primitive" part of the claim): on the
two-parallelogram tie world, both `BVH::hit_by` and `Scene::hit_by` hit at
time 1, but the scene returns `paraXY`'s record (material handle 1, first in
list order) while the BVH returns `paraYZ`'s record (material handle 2,
visited first as the near child of the ray's negative x-direction): the hits
come from different primitives and the two functions' results differ. -/
theorem C1_bvh_scene_counterexample :
    BVH.construct tieWorld 32 12 = some tieBVH ∧
    tieBVH.hit_by tieRay tieTimes = some tieHitYZ ∧
    Scene.hit_by tieWorld tieRay tieTimes = some tieHitXY ∧
    tieHitYZ.hit_time = tieHitXY.hit_time ∧
    tieHitYZ.material = 2 ∧ tieHitXY.material = 1 ∧
    tieBVH.hit_by tieRay tieTimes ≠ Scene.hit_by tieWorld tieRay tieTimes := by
  refine ⟨by with_unfolding_all rfl, tieBVH_hit, tieScene_eq, rfl, rfl, rfl,
    ?_⟩
  rw [tieBVH_hit, tieScene_eq]
  intro hcontra
  exact absurd (congrArg hit_info.material (Option.some.inj hcontra))
    (by decide)

/-- Witness for the amended C1: the equivalence applied to the tie world,
with the construction, soundness, and nonzero-direction hypotheses
discharged. -/
theorem C1_bvh_scene_amended_witness :
    ((tieBVH.hit_by tieRay tieTimes).isSome =
      (Scene.hit_by tieWorld tieRay tieTimes).isSome) ∧
    (∀ h₁ h₂, tieBVH.hit_by tieRay tieTimes = some h₁ →
      Scene.hit_by tieWorld tieRay tieTimes = some h₂ →
      h₁.hit_time = h₂.hit_time) := by
  obtain ⟨h1, h2, -⟩ := C1_bvh_scene_amended tieWorld 32 12 tieBVH
    (by with_unfolding_all rfl) tieRay tieTimes tieSound
    (by norm_num [tieRay]) (by norm_num [tieRay]) (by norm_num [tieRay])
  exact ⟨h1, h2⟩

/-- C9: on a constructor-built BVH, every state the traversal loop of
`BVH::hit_by` reaches keeps at most `depth - 1` node indices on the DFS
stack (so the count never exceeds the built tree's depth, as claimed);
consequently, when the tree depth is at most 128, strictly fewer than 128
entries are ever stored simultaneously, so the source's fixed 128-entry
`dfs_callstack` array is always accessed in bounds (each push writes at
index `stack_next_index = length ≤ 126` before incrementing, and each pop
reads at `length - 1`). -/
theorem C9_dfs_stack_depth_bound (world : List Prim) (nb mp : ℕ) (b : BVH)
    (hb : BVH.construct world nb mp = some b) (t : BVHTree)
    (ht : build_bvh_tree nb mp (world.length + 1) world = some t)
    (ray : Ray3D ℚ) (rt : Interval ℚ) (j : ℕ) (st' : TravState)
    (hreach : b.iterate ray rt.min (invRayDir ray) (dirIsNegative ray) j
      ⟨0, [], rt.max, none⟩ = .inl st') :
    st'.dfs_callstack.length + 1 ≤ t.depth ∧
      (t.depth ≤ 128 → st'.dfs_callstack.length < 128) := by
  obtain ⟨t', ht', hp, hn⟩ := construct_some world nb mp b hb
  rw [ht] at ht'
  cases Option.some.inj ht'
  obtain ⟨hwf, hperm⟩ := build_wfb nb mp _ world t ht
  obtain ⟨k, hk1, hk2, hKform, hJ⟩ := BVH.traverse_tree b ray rt.min
    (invRayDir ray) (dirIsNegative ray) t hwf 0 0
    (construct_layout b t hp hn) [] rt.max none
  by_cases hj : j < k
  · have hbound : st'.dfs_callstack.length + 1 ≤ t.depth := by
      simpa using hJ j hj st' hreach
    exact ⟨hbound, fun h128 => by omega⟩
  · exfalso
    rw [(hKform j (not_lt.1 hj)).1 rfl] at hreach
    exact Sum.noConfusion hreach

/-- Witness for C9: after one loop iteration on the tie BVH the stack holds
one index (the far child), and the bound instantiates with the built tree's
depth 2. -/
theorem C9_dfs_stack_depth_bound_witness :
    tieBVH.iterate tieRay tieTimes.min (invRayDir tieRay)
        (dirIsNegative tieRay) 1 ⟨0, [], tieTimes.max, none⟩ =
      .inl tieStackState ∧
    tieStackState.dfs_callstack.length + 1 ≤ tieTree.depth ∧
      (tieTree.depth ≤ 128 → tieStackState.dfs_callstack.length < 128) := by
  refine ⟨by with_unfolding_all rfl, ?_⟩
  exact C9_dfs_stack_depth_bound tieWorld 32 12 tieBVH
    (by with_unfolding_all rfl) tieTree (by with_unfolding_all rfl)
    tieRay tieTimes 1 tieStackState (by with_unfolding_all rfl)

end RT
